import Mathlib

/-
Verification of the graph-similarity engine: neighbor-profile distance
computation (closest_node, graphs2bipartite_weight), the iterative
shortest-path-distance estimator (shortest_path_dist) and the HITS scorer
(hits, normalization, comparison).  Python lists mutated in place are
modelled by explicit state passing: a function that mutates its arguments
returns the final value of those arguments alongside its result.
Floating-point arithmetic is idealized as real arithmetic.
-/

namespace GraphSim

open Classical in
/-- Sum of squared componentwise differences of two real vectors.  This is
the radicand of scipy's euclidean distance; the repository only ever reaches
it with equal-length vectors (it pads first), so the value on unequal
lengths is irrelevant junk. -/
noncomputable def sumSqDiff : List ℝ → List ℝ → ℝ
  | [], [] => 0
  | x :: xs, y :: ys => (x - y) ^ 2 + sumSqDiff xs ys
  | _, _ => 0

/-- Euclidean distance between two real vectors, as
`scipy.spatial.distance.euclidean` computes it on equal-length inputs. -/
noncomputable def euclid (u v : List ℝ) : ℝ := Real.sqrt (sumSqDiff u v)

/-- Zero padding to a target length; mirrors the in-place loop
`[i.append(0) for k in range(len(j)-len(i))]` run on the shorter vector. -/
def padTo (u : List ℝ) (n : ℕ) : List ℝ := u ++ List.replicate (n - u.length) 0

/-- The pad-then-Euclidean profile distance of the spec: equalize lengths by
zero-padding the shorter vector, then take the Euclidean distance. -/
noncomputable def padDist (u v : List ℝ) : ℝ :=
  euclid (padTo u (max u.length v.length)) (padTo v (max u.length v.length))

/-- Minimum of a list of reals, as Python's `min` computes it on a
nonempty list (the empty-list value is junk; Python would raise). -/
noncomputable def listMin : List ℝ → ℝ
  | [] => 0
  | [x] => x
  | x :: y :: ys => min x (listMin (y :: ys))

open Classical in
/-- First index of a value in a list of reals, as Python's `list.index`
computes it (junk value `l.length` when absent; Python would raise). -/
noncomputable def pyIndex (l : List ℝ) (x : ℝ) : ℕ :=
  match l with
  | [] => 0
  | y :: ys => if y = x then 0 else pyIndex ys x + 1

/-- Mirrors the selection `dist_list.index(min(dist_list))`. -/
noncomputable def idxOfMin (l : List ℝ) : ℕ := pyIndex l (listMin l)

/-- Zero-extension: `x` is `u` with some number of trailing zeros appended.
The in-place padding of the source only ever appends zeros, so every profile
list reached during a scan is a zero-extension of the caller's original. -/
def IsZExt (u x : List ℝ) : Prop := ∃ a, x = u ++ List.replicate a 0

/-- Pointwise zero-extension of a list of profile vectors. -/
def IsZExtL (us xs : List (List ℝ)) : Prop := List.Forall₂ IsZExt us xs

/-- One row of `closest_node`: compare the current profile `x` (the loop
variable `i`, mutated in place by padding) against every profile of `nl2` in
order, mirroring the three length branches of the source.  Returns the
distance list together with the final values of `x` and of `nl2`. -/
noncomputable def scanRow (x : List ℝ) (nl2 : List (List ℝ)) :
    List ℝ × List ℝ × List (List ℝ) :=
  match nl2 with
  | [] => ([], x, [])
  | j :: rest =>
    if x.length = j.length then
      let d := euclid x j
      let r := scanRow x rest
      (d :: r.1, r.2.1, j :: r.2.2)
    else if x.length < j.length then
      let x2 := padTo x j.length
      let d := euclid x2 j
      let r := scanRow x2 rest
      (d :: r.1, r.2.1, j :: r.2.2)
    else
      let j2 := padTo j x.length
      let d := euclid x j2
      let r := scanRow x rest
      (d :: r.1, r.2.1, j2 :: r.2.2)

/-- Worker for `closest_node`, threading the mutable state (remaining rows
of `nl1`, the current value of `nl2`, the running counter `count`). -/
noncomputable def closest_node_aux :
    List (List ℝ) → List (List ℝ) → ℕ → List (ℕ × ℕ) × List (List ℝ) × List (List ℝ)
  | [], nl2, _ => ([], [], nl2)
  | i :: rest, nl2, count =>
    let r := scanRow i nl2
    let pr := (count, idxOfMin r.1)
    let rr := closest_node_aux rest r.2.2 (count + 1)
    (pr :: rr.1, r.2.1 :: rr.2.1, rr.2.2)

/-- The source's `closest_node(nl1, nl2)`: first component is the returned
`closest_node_list`; the second and third components are the values of the
caller's `nl1` and `nl2` after the call (the source pads them in place). -/
noncomputable def closest_node (nl1 nl2 : List (List ℝ)) :
    List (ℕ × ℕ) × List (List ℝ) × List (List ℝ) :=
  closest_node_aux nl1 nl2 0

/-- Does the edge record `e` join `u` and `v` (in either orientation)? -/
def edgeMatches (u v : ℤ) (e : ℤ × ℤ × ℝ) : Bool :=
  (e.1 == u && e.2.1 == v) || (e.1 == v && e.2.1 == u)

/-- An undirected weighted graph in the style of `networkx.Graph`: a list of
weighted edge records.  Node labels are integers (the bipartite graph uses
positive labels for graph A and negative labels for graph B). -/
structure BGraph where
  nodes : List ℤ
  edges : List (ℤ × ℤ × ℝ)

/-- Mirrors `networkx.Graph.add_node`: a no-op when the node exists. -/
def addNode (g : BGraph) (x : ℤ) : BGraph :=
  if x ∈ g.nodes then g else ⟨g.nodes ++ [x], g.edges⟩

/-- Mirrors `networkx.Graph.add_edge`: both endpoints are added as nodes and
the edge weight for the (unordered) pair is overwritten. -/
def addEdge (g : BGraph) (u v : ℤ) (w : ℝ) : BGraph :=
  let g1 := addNode (addNode g u) v
  ⟨g1.nodes, g1.edges.filter (fun e => !(edgeMatches u v e)) ++ [(u, v, w)]⟩

/-- Weight lookup for the (unordered) pair `u, v`, `none` when absent. -/
def getW (g : BGraph) (u v : ℤ) : Option ℝ :=
  (g.edges.find? (edgeMatches u v)).map (fun e => e.2.2)

/-- Body of the double loop of `graphs2bipartite_weight` for row `iIdx` and
column `jIdx`: the first `if` adds the edge when the lengths agree, then the
second `if`/`else` pads the shorter profile in place and adds the edge
(in the equal-length case the `else` re-adds it with an identical weight,
exactly as the source's branch structure does).  Returns the graph and the
final values of the two profile lists. -/
noncomputable def bipartBody (iIdx jIdx : ℕ) (g : BGraph) (ni nj : List ℝ) :
    BGraph × List ℝ × List ℝ :=
  let u : ℤ := (iIdx : ℤ) + 1
  let v : ℤ := -(jIdx : ℤ) - 1
  let g1 := if ni.length = nj.length then addEdge g u v (1 / (euclid ni nj + 0.001)) else g
  if ni.length < nj.length then
    let ni2 := padTo ni nj.length
    (addEdge g1 u v (1 / (euclid ni2 nj + 0.001)), ni2, nj)
  else
    let nj2 := padTo nj ni.length
    (addEdge g1 u v (1 / (euclid ni nj2 + 0.001)), ni, nj2)

/-- Inner loop of `graphs2bipartite_weight` over the columns of `nei2`,
threading the mutated row profile and the mutated `nei2` entries. -/
noncomputable def bipartRow (iIdx jStart : ℕ) (g : BGraph) (ni : List ℝ) :
    List (List ℝ) → BGraph × List ℝ × List (List ℝ)
  | [] => (g, ni, [])
  | nj :: rest =>
    let r := bipartBody iIdx jStart g ni nj
    let rr := bipartRow iIdx (jStart + 1) r.1 r.2.1 rest
    (rr.1, rr.2.1, r.2.2 :: rr.2.2)

/-- Outer loop of `graphs2bipartite_weight` over the rows of `nei1`. -/
noncomputable def bipartAll (iStart : ℕ) (g : BGraph) :
    List (List ℝ) → List (List ℝ) → BGraph × List (List ℝ) × List (List ℝ)
  | [], nei2 => (g, [], nei2)
  | ni :: rest, nei2 =>
    let r := bipartRow iStart 0 g ni nei2
    let rr := bipartAll (iStart + 1) r.1 rest r.2.2
    (rr.1, r.2.1 :: rr.2.1, rr.2.2)

/-- The source's `graphs2bipartite_weight(nei1, nei2)`: returns the built
bipartite graph `G_bp` together with the values of the caller's `nei1` and
`nei2` after the call (the source pads them in place). -/
noncomputable def graphs2bipartite_weight (nei1 nei2 : List (List ℝ)) :
    BGraph × List (List ℝ) × List (List ℝ) :=
  let g0 : BGraph := ⟨[], []⟩
  let g1 := (List.range nei1.length).foldl (fun g (i : ℕ) => addNode g ((i : ℤ) + 1)) g0
  let g2 := (List.range nei2.length).foldl (fun g (j : ℕ) => addNode g (-(j : ℤ) - 1)) g1
  bipartAll 0 g2 nei1 nei2

/-- An undirected weighted graph for the shortest-path estimator (a
`networkx.Graph` restricted to what `shortest_path_dist` uses). -/
structure WGraph where
  edges : List (ℤ × ℤ × ℝ)

/-- Boolean adjacency test. -/
def adjB (g : WGraph) (u v : ℤ) : Bool := g.edges.any (edgeMatches u v)

/-- Adjacency as a proposition. -/
def Adj (g : WGraph) (u v : ℤ) : Prop := adjB g u v = true

/-- Neighbors of `u`: the opposite endpoints of edges incident to `u`. -/
def neighbors (g : WGraph) (u : ℤ) : List ℤ :=
  g.edges.filterMap (fun e =>
    if e.1 = u then some e.2.1 else if e.2.1 = u then some e.1 else none)

/-- Weight lookup `G[u][v]['weight']` (junk `0` when the edge is absent;
the estimator only looks up edges lying on a returned path). -/
def getWeight (g : WGraph) (u v : ℤ) : ℝ :=
  ((g.edges.find? (edgeMatches u v)).map (fun e => e.2.2)).getD 0

/-- Mirrors `G.remove_edge(u, v)`. -/
def removeEdge (g : WGraph) (u v : ℤ) : WGraph :=
  ⟨g.edges.filter (fun e => !(edgeMatches u v e))⟩

/-- All walks with exactly `k` edges starting at `s`, stored reversed (the
head of the list is the walk's current endpoint, the last element is `s`). -/
def walksFrom (g : WGraph) (s : ℤ) : ℕ → List (List ℤ)
  | 0 => [[s]]
  | k + 1 =>
    ((walksFrom g s k).map (fun p => (neighbors g (p.headD s)).map (fun v => v :: p))).flatten

/-- Reversed walks with exactly `k` edges from `s` that end at `t`. -/
def pathsTo (g : WGraph) (s t : ℤ) (k : ℕ) : List (List ℤ) :=
  (walksFrom g s k).filter (fun p => decide (p.head? = some t))

/-- Search for the smallest hop count `k` (starting at `k`, with `b` counts
remaining) at which some walk from `s` reaches `t`; return the first such
reversed walk. -/
def searchK (g : WGraph) (s t : ℤ) : ℕ → ℕ → Option (List ℤ)
  | _, 0 => none
  | k, b + 1 =>
    match (pathsTo g s t k).head? with
    | some p => some p
    | none => searchK g s t (k + 1) b

/-- The vertex universe relevant to walks from `s`: the source together with
every edge endpoint, deduplicated. -/
def vertsOf (g : WGraph) (s : ℤ) : List ℤ :=
  (s :: g.edges.foldr (fun e acc => e.1 :: e.2.1 :: acc) []).dedup

/-- Bound on the hop count of a shortest walk: the number of vertices. -/
def nodeBound (g : WGraph) (s : ℤ) : ℕ := (vertsOf g s).length

/-- Model of `networkx.shortest_path(G, source, target)` (unweighted):
a fewest-hops path from `source` to `target` as a node list, or `none`
when `target` is unreachable.  The tie between equally short paths is
broken by enumeration order (the library's own tie-break is likewise an
unspecified search order). -/
def shortestPath (g : WGraph) (s t : ℤ) : Option (List ℤ) :=
  (searchK g s t 0 (nodeBound g s)).map List.reverse

/-- Model of `networkx.has_path(G, source, target)`; the reachability
reading is proved as `has_path_iff_exists_path`. -/
def has_path (g : WGraph) (s t : ℤ) : Bool := (shortestPath g s t).isSome

/-- The proposition that `p` is a walk from `s` to `t` in `g`, written in
forward node order as `networkx` returns paths. -/
def IsPathList (g : WGraph) (s t : ℤ) (p : List ℤ) : Prop :=
  p.head? = some s ∧ p.getLast? = some t ∧ List.Chain' (Adj g) p

/-- Consecutive node pairs of a path: the edges the path traverses. -/
def pathPairs (p : List ℤ) : List (ℤ × ℤ) := p.zip p.tail

/-- The edge-consuming loop over one extracted path: look up each traversed
edge's weight, then remove the edge, threading the shrinking graph exactly
as the source does inside its `for j in range(len(s1)-1)` loop. -/
def consumePath : WGraph → List ℤ → List ℝ × WGraph
  | g, u :: v :: rest =>
    let w := getWeight g u v
    let g2 := removeEdge g u v
    let r := consumePath g2 (v :: rest)
    (w :: r.1, r.2)
  | g, _ => ([], g)

/-- The decoded endpoints: sources and sinks for both graphs. -/
structure DrainParams where
  s1 : ℤ
  t1 : ℤ
  s2 : ℤ
  t2 : ℤ

/-- Which graph ran out of paths first (the printed SPECIAL CASE). -/
inductive ShortCase where
  | graph1 : ShortCase
  | graph2 : ShortCase

/-- State of the draining loop: the two (destructively consumed) graphs,
the two recorded weight-sum lists, the special-case flag and whether the
loop has stopped (Python's `break`). -/
structure DrainState where
  G1 : WGraph
  G2 : WGraph
  l1 : List ℝ
  l2 : List ℝ
  special : Option ShortCase
  stopped : Bool

/-- One iteration of the draining loop of `shortest_path_dist`.  The four
cases follow the source's `if has_path1 and has_path2 / elif / elif / else`
(here `has_path` is by definition `Option.isSome` of `shortestPath`, so the
case split is written on the two options directly). -/
def drainStep (P : DrainParams) (st : DrainState) : DrainState :=
  if st.stopped then st else
  match shortestPath st.G1 P.s1 P.t1, shortestPath st.G2 P.s2 P.t2 with
  | some p1, some p2 =>
    let r1 := consumePath st.G1 p1
    let r2 := consumePath st.G2 p2
    { st with G1 := r1.2, G2 := r2.2,
              l1 := st.l1 ++ [r1.1.sum], l2 := st.l2 ++ [r2.1.sum] }
  | none, some _ => { st with stopped := true, special := some ShortCase.graph1 }
  | some _, none => { st with stopped := true, special := some ShortCase.graph2 }
  | none, none => { st with stopped := true }

/-- The draining loop `for i in range(iter)`: `b` remaining iterations. -/
def drainLoop (P : DrainParams) : ℕ → DrainState → DrainState
  | 0, st => st
  | b + 1, st => drainLoop P b (drainStep P st)

/-- Decode a matched pair's signed labels into the underlying node of graph
A and node of graph B, as the source's sign test does. -/
def decode (pr : ℤ × ℤ) : ℤ × ℤ :=
  if 0 < pr.1 then (pr.1 - 1, -pr.2 - 1) else (pr.2 - 1, -pr.1 - 1)

/-- The sink-resampling loop `while source_pair == sink_pair`, with the
random draws modelled by an oracle `stream` of indices into `best_fit`
(draw `t` picks `bf[stream t % bf.length]`) and a fuel bound: `none` means
the loop has not terminated within `fuel` draws. -/
def pickSink (bf : List (ℤ × ℤ)) (src : ℤ × ℤ) (stream : ℕ → ℕ) : ℕ → ℕ → Option (ℤ × ℤ)
  | _, 0 => none
  | t, fuel + 1 =>
    if bf.getD (stream t % bf.length) (0, 0) = src then pickSink bf src stream (t + 1) fuel
    else some (bf.getD (stream t % bf.length) (0, 0))

/-- Initial draining state: fresh graphs, empty weight lists. -/
def initDrain (G1 G2 : WGraph) : DrainState := ⟨G1, G2, [], [], none, false⟩

/-- The tail of `shortest_path_dist` once source and sink pairs are fixed:
decode endpoints, run the draining loop `len(best_fit) ** 2` times, and
return the final state together with the Euclidean distance of the two
recorded weight-sum lists. -/
noncomputable def spdAfterSample (G1 G2 : WGraph) (bfLen : ℕ) (src snk : ℤ × ℤ) :
    DrainState × ℝ :=
  let s := decode src
  let t := decode snk
  let fs := drainLoop ⟨s.1, t.1, s.2, t.2⟩ (bfLen ^ 2) (initDrain G1 G2)
  (fs, euclid fs.l1 fs.l2)

/-- The source's `shortest_path_dist(G1, G2, best_fit)`: draw the source
pair (oracle draw 0), resample the sink pair until it differs (draws 1, 2,
...; `none` when that loop does not terminate within `fuel` draws), then
drain shortest paths and return the distance of the weight-sum lists. -/
noncomputable def shortest_path_dist (G1 G2 : WGraph) (bf : List (ℤ × ℤ))
    (stream : ℕ → ℕ) (fuel : ℕ) : Option ℝ :=
  (pickSink bf (bf.getD (stream 0 % bf.length) (0, 0)) stream 1 fuel).map
    (fun snk => (spdAfterSample G1 G2 bf.length (bf.getD (stream 0 % bf.length) (0, 0)) snk).2)

/-- The source's `normalization(score)`: divide every component by the
square root of the sum of squared components. -/
noncomputable def normalization {n : ℕ} (score : Fin n → ℝ) : Fin n → ℝ :=
  let denominator := Real.sqrt (∑ i, score i ^ 2)
  fun i => score i / denominator

/-- One iteration of the `hits` loop: refresh the authority scores from the
hub scores (normalizing when enabled), then refresh the hub scores from the
new authority scores (normalizing when enabled). -/
noncomputable def hitsStep {n : ℕ} (a : Matrix (Fin n) (Fin n) ℝ) (nrm : Bool)
    (st : (Fin n → ℝ) × (Fin n → ℝ)) : (Fin n → ℝ) × (Fin n → ℝ) :=
  let authorityScore := Matrix.mulVec (Matrix.transpose a) st.2
  let authorityScore2 := if nrm then normalization authorityScore else authorityScore
  let hubScore := Matrix.mulVec a authorityScore2
  let hubScore2 := if nrm then normalization hubScore else hubScore
  (authorityScore2, hubScore2)

/-- The source's `hits(a, k, normalize)`: start from all-ones score vectors
and run `k` iterations of `hitsStep`; returns `(authorityScore, hubScore)`. -/
noncomputable def hits {n : ℕ} (a : Matrix (Fin n) (Fin n) ℝ) (k : ℕ) (nrm : Bool) :
    (Fin n → ℝ) × (Fin n → ℝ) :=
  (List.range k).foldl (fun st _ => hitsStep a nrm st) (fun _ => 1, fun _ => 1)

/-- `hits` at its default arguments `k=40`, `normalize=True`. -/
noncomputable def hitsDefault {n : ℕ} (a : Matrix (Fin n) (Fin n) ℝ) :
    (Fin n → ℝ) × (Fin n → ℝ) := hits a 40 true

/-- The source's `numOfVertices = int(np.size(a) ** 0.5)` for an `n × n`
matrix, whose `np.size` is `n * n`. -/
def numOfVertices {n : ℕ} (_a : Matrix (Fin n) (Fin n) ℝ) : ℕ := Nat.sqrt (n * n)

/-- Ascending sort of a score vector, as `np.sort` produces it.  Any two
correct ascending sorts of the same multiset of reals are equal as lists,
so the choice of sorting algorithm is immaterial. -/
noncomputable def npSort {n : ℕ} (v : Fin n → ℝ) : List ℝ :=
  (List.ofFn v).insertionSort (fun a b => a ≤ b)

/-- Model of `np.allclose` at its default tolerances
(`rtol=1e-5`, `atol=1e-8`): elementwise `|x - y| <= atol + rtol * |y|`. -/
def allcloseL (x y : List ℝ) : Prop :=
  x.length = y.length ∧
    ∀ i, i < x.length → |x.getD i 0 - y.getD i 0| ≤ 1e-8 + 1e-5 * |y.getD i 0|

/-- The source's `comparison(a, b)`: run `hits` on each matrix with default
arguments, sort the four score vectors ascending, test approximate equality
of the sorted authority vectors and of the sorted hub vectors, and report
the verdict together with the four sorted vectors (the source prints them;
the model returns them). -/
noncomputable def comparison {n : ℕ} (a b : Matrix (Fin n) (Fin n) ℝ) :
    Prop × List ℝ × List ℝ × List ℝ × List ℝ :=
  let pa := hitsDefault a
  let pb := hitsDefault b
  let authorityA := npSort pa.1
  let authorityB := npSort pb.1
  let hubA := npSort pa.2
  let hubB := npSort pb.2
  let authorityEqual := allcloseL authorityA authorityB
  let hubEqual := allcloseL hubA hubB
  (authorityEqual ∧ hubEqual, authorityA, hubA, authorityB, hubB)

/-- The adjacency matrix `[[0, 1], [1, 0]]` of the 2-node test vector. -/
noncomputable def swapMatrix : Matrix (Fin 2) (Fin 2) ℝ := !![0, 1; 1, 0]
theorem sumSqDiff_self : ∀ u : List ℝ, sumSqDiff u u = 0 := by
  intro u
  induction u with
  | nil => simp [sumSqDiff]
  | cons x xs ih => simp [sumSqDiff, ih]

theorem sumSqDiff_comm : ∀ u v : List ℝ, sumSqDiff u v = sumSqDiff v u := by
  intro u
  induction u with
  | nil => intro v; cases v <;> simp [sumSqDiff]
  | cons x xs ih =>
      intro v
      cases v with
      | nil => simp [sumSqDiff]
      | cons y ys => simp [sumSqDiff, ih ys]; ring_nf

theorem sumSqDiff_nonneg : ∀ u v : List ℝ, 0 ≤ sumSqDiff u v := by
  intro u
  induction u with
  | nil => intro v; cases v <;> simp [sumSqDiff]
  | cons x xs ih =>
      intro v
      cases v with
      | nil => simp [sumSqDiff]
      | cons y ys => have := ih ys; have h2 : (0:ℝ) ≤ (x - y) ^ 2 := sq_nonneg _
                     simp only [sumSqDiff]; linarith

theorem euclid_self (u : List ℝ) : euclid u u = 0 := by
  simp [euclid, sumSqDiff_self]

theorem euclid_nonneg (u v : List ℝ) : 0 ≤ euclid u v := Real.sqrt_nonneg _

theorem padTo_length (u : List ℝ) (n : ℕ) : (padTo u n).length = max n u.length := by
  simp [padTo]
  omega

theorem padTo_append_replicate (u : List ℝ) (a : ℕ) :
    u ++ List.replicate a 0 = padTo u (u.length + a) := by
  simp [padTo]

theorem padTo_padTo (u : List ℝ) (m L : ℕ) (h : m ≤ L) :
    padTo (padTo u m) L = padTo u L := by
  simp only [padTo, List.length_append, List.length_replicate, List.append_assoc,
    ← List.replicate_add]
  congr 2
  omega

/-- Appending the same number of trailing zeros to two equal-length vectors
does not change the sum of squared differences. -/
theorem sumSqDiff_append_zeros :
    ∀ (u v : List ℝ), u.length = v.length → ∀ c : ℕ,
      sumSqDiff (u ++ List.replicate c 0) (v ++ List.replicate c 0) = sumSqDiff u v := by
  intro u
  induction u with
  | nil =>
      intro v hv c
      cases v with
      | nil =>
          simp only [List.nil_append]
          induction c with
          | zero => simp [sumSqDiff]
          | succ c ihc => simp only [List.replicate_succ, sumSqDiff, ihc]; ring
      | cons y ys => simp at hv
  | cons x xs ih =>
      intro v hv c
      cases v with
      | nil => simp at hv
      | cons y ys =>
          simp only [List.length_cons, Nat.succ_inj] at hv
          simp only [List.cons_append, sumSqDiff, List.append_eq, ih ys hv c]

theorem padDist_extend (u v : List ℝ) (L : ℕ) (h : max u.length v.length ≤ L) :
    euclid (padTo u L) (padTo v L) = padDist u v := by
  have hu : u.length ≤ max u.length v.length := le_max_left _ _
  have hv : v.length ≤ max u.length v.length := le_max_right _ _
  set m := max u.length v.length with hm
  have hul : (padTo u m).length = m := by rw [padTo_length]; omega
  have hvl : (padTo v m).length = m := by rw [padTo_length]; omega
  have h1 : padTo u m ++ List.replicate (L - m) 0 = padTo u L := by
    rw [padTo_append_replicate (padTo u m) (L - m), hul, show m + (L - m) = L by omega,
      padTo_padTo u m L h]
  have h2 : padTo v m ++ List.replicate (L - m) 0 = padTo v L := by
    rw [padTo_append_replicate (padTo v m) (L - m), hvl, show m + (L - m) = L by omega,
      padTo_padTo v m L h]
  unfold euclid padDist
  rw [← h1, ← h2, sumSqDiff_append_zeros _ _ (by rw [hul, hvl])]
  rfl

theorem euclid_zext_eq (u v : List ℝ) (a b : ℕ)
    (h : (u ++ List.replicate a 0).length = (v ++ List.replicate b 0).length) :
    euclid (u ++ List.replicate a 0) (v ++ List.replicate b 0) = padDist u v := by
  simp only [List.length_append, List.length_replicate] at h
  have hx : u ++ List.replicate a 0 = padTo u (u.length + a) := padTo_append_replicate u a
  have hy : v ++ List.replicate b 0 = padTo v (v.length + b) := padTo_append_replicate v b
  rw [hx, hy, show v.length + b = u.length + a by omega]
  exact padDist_extend u v (u.length + a) (by omega)

theorem euclid_zext_lt (u v : List ℝ) (a b : ℕ)
    (h : (u ++ List.replicate a 0).length < (v ++ List.replicate b 0).length) :
    euclid (padTo (u ++ List.replicate a 0) (v ++ List.replicate b 0).length)
      (v ++ List.replicate b 0) = padDist u v := by
  simp only [List.length_append, List.length_replicate] at h ⊢
  have hx : u ++ List.replicate a 0 = padTo u (u.length + a) := padTo_append_replicate u a
  have hy : v ++ List.replicate b 0 = padTo v (v.length + b) := padTo_append_replicate v b
  rw [hx, hy, padTo_padTo u (u.length + a) (v.length + b) (by omega)]
  exact padDist_extend u v (v.length + b) (by omega)

theorem euclid_zext_gt (u v : List ℝ) (a b : ℕ)
    (h : (v ++ List.replicate b 0).length < (u ++ List.replicate a 0).length) :
    euclid (u ++ List.replicate a 0)
      (padTo (v ++ List.replicate b 0) (u ++ List.replicate a 0).length) = padDist u v := by
  simp only [List.length_append, List.length_replicate] at h ⊢
  have hx : u ++ List.replicate a 0 = padTo u (u.length + a) := padTo_append_replicate u a
  have hy : v ++ List.replicate b 0 = padTo v (v.length + b) := padTo_append_replicate v b
  rw [hx, hy, padTo_padTo v (v.length + b) (u.length + a) (by omega)]
  exact padDist_extend u v (u.length + a) (by omega)

theorem padDist_self (u : List ℝ) : padDist u u = 0 := by
  unfold padDist
  exact euclid_self _

theorem padDist_nonneg (u v : List ℝ) : 0 ≤ padDist u v := euclid_nonneg _ _

theorem padDist_comm (u v : List ℝ) : padDist u v = padDist v u := by
  unfold padDist euclid
  rw [Nat.max_comm v.length u.length, sumSqDiff_comm]

theorem listMin_le : ∀ (l : List ℝ), ∀ x ∈ l, listMin l ≤ x := by
  intro l
  induction l with
  | nil => intro x hx; simp at hx
  | cons a l ih =>
      intro x hx
      cases l with
      | nil => simp at hx; simp [listMin, hx]
      | cons b l2 =>
          rcases List.mem_cons.mp hx with h | h
          · simp [listMin, h]
          · exact le_trans (by simp [listMin]) (ih x h)

theorem listMin_mem : ∀ (l : List ℝ), l ≠ [] → listMin l ∈ l := by
  intro l
  induction l with
  | nil => intro h; exact absurd rfl h
  | cons a l ih =>
      intro _
      cases l with
      | nil => simp [listMin]
      | cons b l2 =>
          rcases le_total a (listMin (b :: l2)) with h | h
          · simp [listMin, min_eq_left h]
          · have := ih (by simp)
            simp only [listMin, min_eq_right h]
            exact List.mem_cons_of_mem _ this

theorem listMin_eq_zero (l : List ℝ) (h0 : ∀ x ∈ l, 0 ≤ x) (hz : (0:ℝ) ∈ l) :
    listMin l = 0 := by
  have h1 : listMin l ≤ 0 := listMin_le l 0 hz
  have h2 : 0 ≤ listMin l := h0 _ (listMin_mem l (by rintro rfl; simp at hz))
  linarith

theorem pyIndex_le (l : List ℝ) (x : ℝ) :
    ∀ c, c < l.length → l.getD c 1 = x → pyIndex l x ≤ c := by
  induction l with
  | nil => intro c hc; simp at hc
  | cons y ys ih =>
      intro c hc hx
      cases c with
      | zero =>
          simp only [List.getD_cons_zero] at hx
          simp [pyIndex, hx]
      | succ c =>
          simp only [List.getD_cons_succ] at hx
          by_cases hy : y = x
          · simp [pyIndex, hy]
          · simp only [pyIndex, if_neg hy]
            have := ih c (by simpa using Nat.lt_of_succ_lt_succ hc) hx
            omega

theorem pyIndex_eq_first (l : List ℝ) (x : ℝ) :
    ∀ c, c < l.length → l.getD c 1 = x → (∀ j, j < c → l.getD j 1 ≠ x) →
      pyIndex l x = c := by
  induction l with
  | nil => intro c hc; simp at hc
  | cons y ys ih =>
      intro c hc hx hfirst
      cases c with
      | zero =>
          simp only [List.getD_cons_zero] at hx
          simp [pyIndex, hx]
      | succ c =>
          have hy : y ≠ x := by
            have := hfirst 0 (Nat.succ_pos _)
            simpa using this
          simp only [List.getD_cons_succ] at hx
          simp only [pyIndex, if_neg hy]
          have := ih c (by simpa using Nat.lt_of_succ_lt_succ hc) hx
            (fun j hj => by
              have := hfirst (j + 1) (by omega)
              simpa using this)
          omega

theorem IsZExt_refl (u : List ℝ) : IsZExt u u := ⟨0, by simp⟩

theorem IsZExtL_refl (xs : List (List ℝ)) : IsZExtL xs xs :=
  List.forall₂_same.mpr (fun x _ => IsZExt_refl x)

theorem IsZExt_padTo (u x : List ℝ) (n : ℕ) (h : IsZExt u x) : IsZExt u (padTo x n) := by
  obtain ⟨a, rfl⟩ := h
  refine ⟨a + (n - (u ++ List.replicate a 0).length), ?_⟩
  rw [padTo, List.replicate_add, ← List.append_assoc]

theorem getD_map_lt {α β : Type} (f : α → β) (l : List α) :
    ∀ (r : ℕ), r < l.length → ∀ (d : β) (d2 : α), (l.map f).getD r d = f (l.getD r d2) := by
  induction l with
  | nil => intro r hr; simp at hr
  | cons x xs ih =>
      intro r hr d d2
      cases r with
      | zero => simp
      | succ r => simpa using ih r (by simpa using Nat.lt_of_succ_lt_succ hr) d d2

theorem mem_of_getD {α : Type} (l : List α) :
    ∀ (r : ℕ), r < l.length → ∀ d : α, l.getD r d ∈ l := by
  induction l with
  | nil => intro r hr; simp at hr
  | cons x xs ih =>
      intro r hr d
      cases r with
      | zero => simp
      | succ r =>
          simp only [List.getD_cons_succ]
          exact List.mem_cons_of_mem _ (ih r (by simpa using Nat.lt_of_succ_lt_succ hr) d)

theorem pyIndex_getD (x : ℝ) : ∀ (l : List ℝ), x ∈ l → l.getD (pyIndex l x) 1 = x := by
  intro l
  induction l with
  | nil => intro h; simp at h
  | cons y ys ih =>
      intro h
      by_cases hy : y = x
      · simp [pyIndex, hy]
      · have hx : x ∈ ys := by
          rcases List.mem_cons.mp h with h1 | h1
          · exact absurd h1.symm hy
          · exact h1
        simp only [pyIndex, if_neg hy, List.getD_cons_succ]
        exact ih hx

/-- Every distance computed while scanning row `x` against the (mutated)
profiles of `nl2` equals the pad-then-Euclidean distance of the original
profiles, and both `x` and the entries of `nl2` remain zero-extensions of
their originals. -/
theorem scanRow_spec (u : List ℝ) :
    ∀ (os nl2 : List (List ℝ)) (x : List ℝ), IsZExt u x → IsZExtL os nl2 →
      (scanRow x nl2).1 = os.map (fun o => padDist u o) ∧
      IsZExt u (scanRow x nl2).2.1 ∧
      IsZExtL os (scanRow x nl2).2.2 := by
  intro os
  induction os with
  | nil =>
      intro nl2 x hx hl
      cases hl
      exact ⟨by simp [scanRow], hx, List.Forall₂.nil⟩
  | cons o os ih =>
      intro nl2 x hx hl
      cases hl with
      | cons hj hrest =>
          rename_i j rest
          obtain ⟨a, rfl⟩ := hx
          obtain ⟨b, hb⟩ := hj
          subst hb
          by_cases h1 : (u ++ List.replicate a 0).length = (o ++ List.replicate b 0).length
          · have hd := euclid_zext_eq u o a b h1
            have ihr := ih rest (u ++ List.replicate a 0) ⟨a, rfl⟩ hrest
            simp only [scanRow, if_pos h1]
            exact ⟨by simp [hd, ihr.1], ihr.2.1, List.Forall₂.cons ⟨b, rfl⟩ ihr.2.2⟩
          · by_cases h2 : (u ++ List.replicate a 0).length < (o ++ List.replicate b 0).length
            · have hd := euclid_zext_lt u o a b h2
              have hx2 : IsZExt u (padTo (u ++ List.replicate a 0)
                  (o ++ List.replicate b 0).length) := IsZExt_padTo u _ _ ⟨a, rfl⟩
              have ihr := ih rest _ hx2 hrest
              simp only [scanRow, if_neg h1, if_pos h2]
              simp only [List.length_append, List.length_replicate] at hd ihr ⊢
              exact ⟨by simp [hd, ihr.1], ihr.2.1, List.Forall₂.cons ⟨b, rfl⟩ ihr.2.2⟩
            · have h3 : (o ++ List.replicate b 0).length < (u ++ List.replicate a 0).length := by
                omega
              have hd := euclid_zext_gt u o a b h3
              have hj2 : IsZExt o (padTo (o ++ List.replicate b 0)
                  (u ++ List.replicate a 0).length) := IsZExt_padTo o _ _ ⟨b, rfl⟩
              simp only [List.length_append, List.length_replicate] at hj2
              have ihr := ih rest (u ++ List.replicate a 0) ⟨a, rfl⟩ hrest
              simp only [scanRow, if_neg h1, if_neg h2]
              simp only [List.length_append, List.length_replicate] at hd ihr ⊢
              exact ⟨by simp [hd, ihr.1], ihr.2.1, List.Forall₂.cons hj2 ihr.2.2⟩

theorem closest_node_aux_spec (os2 : List (List ℝ)) :
    ∀ (nl1 nl2 : List (List ℝ)) (c : ℕ), IsZExtL os2 nl2 →
      (∀ r, r < nl1.length →
        (closest_node_aux nl1 nl2 c).1.getD r (0, 0)
          = (c + r, idxOfMin (os2.map (fun o => padDist (nl1.getD r []) o)))) ∧
      (closest_node_aux nl1 nl2 c).1.length = nl1.length := by
  intro nl1
  induction nl1 with
  | nil =>
      intro nl2 c _
      exact ⟨fun r hr => by simp at hr, by simp [closest_node_aux]⟩
  | cons i rest ih =>
      intro nl2 c hl
      have hsr := scanRow_spec i os2 nl2 i (IsZExt_refl i) hl
      have ihr := ih (scanRow i nl2).2.2 (c + 1) hsr.2.2
      constructor
      · intro r hr
        cases r with
        | zero =>
            simp only [closest_node_aux, List.getD_cons_zero, Nat.add_zero, List.getD_cons_zero]
            rw [hsr.1]
        | succ r =>
            simp only [closest_node_aux, List.getD_cons_succ]
            rw [(ihr.1) r (by simpa using Nat.lt_of_succ_lt_succ hr)]
            rw [show c + 1 + r = c + (r + 1) by omega]
      · simp only [closest_node_aux, List.length_cons, ihr.2]

/-- Claim C1 (code bug): the pad-then-Euclidean distance is symmetric for
all profile pairs, but the padding is not pure: `closest_node` (and
likewise `graphs2bipartite_weight`) appends zeros to the caller's stored
profile lists in place, so after the call on `[[1]]` and `[[2, 2]]` the
caller's first profile list has become `[1, 0]`, not the original `[1]`. -/
theorem closest_node_padding_mutates :
    (∀ u v : List ℝ, padDist u v = padDist v u) ∧
    (closest_node [[(1:ℝ)]] [[2, 2]]).2.1 = [[1, 0]] ∧
    ([[(1:ℝ), 0]] : List (List ℝ)) ≠ [[1]] ∧
    (graphs2bipartite_weight [[(1:ℝ)]] [[2, 2]]).2.1 = [[1, 0]] := by
  refine ⟨padDist_comm, ?_, ?_, ?_⟩
  · simp [closest_node, closest_node_aux, scanRow, padTo]
  · simp
  · simp [graphs2bipartite_weight, bipartAll, bipartRow, bipartBody, padTo]

/-- Claim C6 (counterexample): on the duplicate-profile list
`nl = [[1], [1]]`, `closest_node(nl, nl)` pairs node `1` with node `0`
(the first-encountered minimum), not with itself, refuting the claim that
the returned list contains `[i, i]` for every index `i`. -/
theorem closest_node_duplicate_profiles :
    (closest_node [[(1:ℝ)], [1]] [[1], [1]]).1 = [(0, 0), (1, 0)] ∧
    ((1, 0) : ℕ × ℕ) ≠ (1, 1) := by
  constructor
  · simp [closest_node, closest_node_aux, scanRow, idxOfMin, listMin, pyIndex]
  · decide

/-- Claim C6 (amended): applied to two equal profile lists, `closest_node`
pairs each row `r` with the first index minimizing the pad-then-Euclidean
distance to the original profiles; that minimum is `0`, it is attained at
column `r`, so the chosen index `j` satisfies `j ≤ r` and names a profile
at padded distance `0` from profile `r`; and `j = r` (the node maps to
itself) whenever no earlier profile is at padded distance `0` — in
particular whenever the profiles are pairwise distinct after padding.
With duplicate profiles a node maps to the first duplicate instead. -/
theorem closest_node_self_first_zero (nl : List (List ℝ)) (r : ℕ) (hr : r < nl.length) :
    (closest_node nl nl).1.getD r (0, 0)
      = (r, idxOfMin (nl.map (fun o => padDist (nl.getD r []) o))) ∧
    idxOfMin (nl.map (fun o => padDist (nl.getD r []) o)) ≤ r ∧
    padDist (nl.getD r [])
      (nl.getD (idxOfMin (nl.map (fun o => padDist (nl.getD r []) o))) []) = 0 ∧
    ((∀ c, c < r → padDist (nl.getD r []) (nl.getD c []) ≠ 0) →
      (closest_node nl nl).1.getD r (0, 0) = (r, r)) := by
  have hchar0 := (closest_node_aux_spec nl nl nl 0 (IsZExtL_refl nl)).1 r hr
  set p := nl.getD r [] with hp
  set ds := nl.map (fun o => padDist p o) with hds
  have hchar : (closest_node nl nl).1.getD r (0, 0) = (r, idxOfMin ds) := by
    rw [closest_node, hchar0, Nat.zero_add]
  have hlen : ds.length = nl.length := by rw [hds, List.length_map]
  have hdr : ds.getD r 1 = 0 := by
    rw [hds, getD_map_lt _ _ r hr 1 []]
    exact padDist_self p
  have hnn : ∀ x ∈ ds, 0 ≤ x := by
    intro x hx
    rw [hds] at hx
    obtain ⟨o, _, rfl⟩ := List.mem_map.mp hx
    exact padDist_nonneg _ _
  have hz : (0:ℝ) ∈ ds := by
    have := mem_of_getD ds r (by omega) 1
    rwa [hdr] at this
  have hmin : listMin ds = 0 := listMin_eq_zero ds hnn hz
  have hid : idxOfMin ds = pyIndex ds 0 := by rw [idxOfMin, hmin]
  have hle : idxOfMin ds ≤ r := by
    rw [hid]
    exact pyIndex_le ds 0 r (by omega) hdr
  have hval : padDist p (nl.getD (idxOfMin ds) []) = 0 := by
    have h1 : ds.getD (idxOfMin ds) 1 = 0 := by rw [hid]; exact pyIndex_getD 0 ds hz
    rw [hds, getD_map_lt _ _ _ (lt_of_le_of_lt hle hr) 1 []] at h1
    exact h1
  refine ⟨hchar, hle, hval, ?_⟩
  intro hfirst
  have heq : idxOfMin ds = r := by
    rw [hid]
    refine pyIndex_eq_first ds 0 r (by omega) hdr ?_
    intro j hj
    rw [hds, getD_map_lt _ _ j (by omega) 1 []]
    exact hfirst j hj
  rw [hchar, heq]

/-- Witness for claim C6's amended theorem: on the duplicate-free list
`[[1], [2]]` the theorem applies and node `1` maps to itself. -/
theorem closest_node_self_first_zero_witness :
    (closest_node [[(1:ℝ)], [2]] [[1], [2]]).1.getD 1 (0, 0) = (1, 1) := by
  have h := closest_node_self_first_zero [[(1:ℝ)], [2]] 1 (by norm_num)
  refine h.2.2.2 ?_
  intro c hc
  have hc0 : c = 0 := by omega
  subst hc0
  simp only [List.getD_cons_zero, List.getD_cons_succ]
  simp [padDist, padTo, euclid, sumSqDiff, Real.sqrt_eq_zero']
  norm_num

theorem hits_succ {n : ℕ} (a : Matrix (Fin n) (Fin n) ℝ) (k : ℕ) (nrm : Bool) :
    hits a (k + 1) nrm = hitsStep a nrm (hits a k nrm) := by
  rw [hits, hits, List.range_succ, List.foldl_append]
  rfl

/-- Claim C4: `hits(a, k, normalize)` initializes both score vectors to all
ones of length `sqrt(size(a))` (which is `n` for an `n × n` matrix) and
performs exactly `k` iterations, each refreshing the authority scores as
`aᵀ · hub` (L2-normalized when enabled) and then the hub scores as
`a · authority` (L2-normalized when enabled); the defaults are `k = 40`
and `normalize = true`, and there is no convergence check — the iteration
count is exactly `k` by the stated recurrence. -/
theorem hits_state_machine {n : ℕ} (a : Matrix (Fin n) (Fin n) ℝ) (k : ℕ) (nrm : Bool) :
    hits a 0 nrm = (fun _ => 1, fun _ => 1) ∧
    hits a (k + 1) nrm = hitsStep a nrm (hits a k nrm) ∧
    (∀ st, (hitsStep a nrm st).1
        = (if nrm then normalization (Matrix.mulVec (Matrix.transpose a) st.2)
           else Matrix.mulVec (Matrix.transpose a) st.2) ∧
      (hitsStep a nrm st).2
        = (if nrm then normalization (Matrix.mulVec a (hitsStep a nrm st).1)
           else Matrix.mulVec a (hitsStep a nrm st).1)) ∧
    hitsDefault a = hits a 40 true ∧
    numOfVertices a = n := by
  exact ⟨rfl, hits_succ a k nrm, fun st => ⟨rfl, rfl⟩, rfl, Nat.sqrt_eq n⟩

/-- Claim C5 (code bug): `normalization` has no error path.  On an
identically-zero score vector it divides by a zero denominator and still
returns a vector (in this real-number model the division-by-zero convention
gives the zero vector; in the floating-point source it silently produces
NaNs with at most a runtime warning), instead of failing fast with a
descriptive error as the claim requires. -/
theorem normalization_zero_vector_total :
    normalization (fun _ : Fin 2 => (0:ℝ)) = fun _ => 0 := by
  funext i
  simp [normalization]

/-- Claim C9: `hits` on the matrix `[[0, 1], [1, 0]]` with `k = 40` and
normalization enabled returns authority and hub vectors both exactly equal
to `[1/√2, 1/√2]` (the idealized form of equality within floating-point
tolerance). -/
theorem hits_swap_matrix_value :
    hits swapMatrix 40 true
      = (fun _ => 1 / Real.sqrt 2, fun _ => 1 / Real.sqrt 2) := by
  set v : Fin 2 → ℝ := fun _ => 1 / Real.sqrt 2 with hv
  have hT : Matrix.transpose swapMatrix = swapMatrix := by
    ext i j
    fin_cases i <;> fin_cases j <;> simp [swapMatrix]
  have hmul_ones : Matrix.mulVec swapMatrix (fun _ => (1:ℝ)) = fun _ => 1 := by
    funext i
    fin_cases i <;>
      simp [Matrix.mulVec, Matrix.dotProduct, swapMatrix, Fin.sum_univ_two]
  have hnorm_ones : normalization (fun _ : Fin 2 => (1:ℝ)) = v := by
    funext i
    simp only [normalization, Fin.sum_univ_two, hv]
    norm_num
  have hsq : (1 / Real.sqrt 2) ^ 2 = 1 / 2 := by
    rw [div_pow, one_pow, Real.sq_sqrt (by norm_num : (0:ℝ) ≤ 2)]
  have hmul_v : Matrix.mulVec swapMatrix v = v := by
    funext i
    fin_cases i <;>
      simp [Matrix.mulVec, Matrix.dotProduct, swapMatrix, Fin.sum_univ_two, hv]
  have hnorm_v : normalization v = v := by
    funext i
    simp only [normalization, Fin.sum_univ_two, hv, hsq]
    norm_num
  have hstep1 : hitsStep swapMatrix true (fun _ => 1, fun _ => 1) = (v, v) := by
    simp only [hitsStep, hT, if_true]
    rw [hmul_ones, hnorm_ones, hmul_v, hnorm_v]
  have hstepv : hitsStep swapMatrix true (v, v) = (v, v) := by
    simp only [hitsStep, hT, if_true]
    rw [hmul_v, hnorm_v, hmul_v, hnorm_v]
  have hmain : ∀ m, hits swapMatrix (m + 1) true = (v, v) := by
    intro m
    induction m with
    | zero => rw [hits_succ]; exact hstep1
    | succ m ih => rw [hits_succ, ih, hstepv]
  exact hmain 39

/-- Claim C8: `comparison(a, b)` runs `hits` on each matrix with the
default arguments, sorts the two authority vectors and the two hub vectors
ascending, declares the graphs similar exactly when the sorted authority
vectors are approximately equal and the sorted hub vectors are
approximately equal (two independent tests, conjoined), and outputs the
verdict together with the four sorted score vectors. -/
theorem comparison_spec {n : ℕ} (a b : Matrix (Fin n) (Fin n) ℝ) :
    ((comparison a b).1 ↔
      (allcloseL (npSort (hits a 40 true).1) (npSort (hits b 40 true).1) ∧
       allcloseL (npSort (hits a 40 true).2) (npSort (hits b 40 true).2))) ∧
    (comparison a b).2.1 = npSort (hits a 40 true).1 ∧
    (comparison a b).2.2.1 = npSort (hits a 40 true).2 ∧
    (comparison a b).2.2.2.1 = npSort (hits b 40 true).1 ∧
    (comparison a b).2.2.2.2 = npSort (hits b 40 true).2 ∧
    List.Sorted (fun x y => x ≤ y) ((comparison a b).2.1) ∧
    List.Sorted (fun x y => x ≤ y) ((comparison a b).2.2.2.1) := by
  refine ⟨Iff.rfl, rfl, rfl, rfl, rfl, ?_, ?_⟩ <;>
    exact List.sorted_insertionSort _ _

theorem edgeMatches_comm (u v : ℤ) (e : ℤ × ℤ × ℝ) : edgeMatches u v e = edgeMatches v u e := by
  rcases e with ⟨a, b, w⟩
  simp only [edgeMatches]
  exact Bool.or_comm _ _

theorem mem_neighbors_of_adj (g : WGraph) (u v : ℤ) (h : Adj g u v) : v ∈ neighbors g u := by
  rw [Adj, adjB, List.any_eq_true] at h
  obtain ⟨e, he, hm⟩ := h
  rcases e with ⟨a, b, w⟩
  simp only [edgeMatches, Bool.or_eq_true, Bool.and_eq_true, beq_iff_eq] at hm
  rw [neighbors, List.mem_filterMap]
  rcases hm with ⟨h1, h2⟩ | ⟨h1, h2⟩
  · exact ⟨(a, b, w), he, by rw [if_pos h1, h2]⟩
  · refine ⟨(a, b, w), he, ?_⟩
    by_cases hau : a = u
    · have hvb : v = b := by rw [← h1, hau, ← h2]
      rw [if_pos hau, hvb]
    · rw [if_neg hau, if_pos h2, h1]

theorem adj_of_mem_neighbors (g : WGraph) (u v : ℤ) (h : v ∈ neighbors g u) : Adj g u v := by
  rw [neighbors, List.mem_filterMap] at h
  obtain ⟨e, he, hf⟩ := h
  rcases e with ⟨a, b, w⟩
  rw [Adj, adjB, List.any_eq_true]
  refine ⟨(a, b, w), he, ?_⟩
  simp only at hf
  by_cases hau : a = u
  · simp only [hau, if_pos rfl] at hf
    have hb : b = v := by simpa using hf
    subst hau hb
    simp [edgeMatches]
  · by_cases hbu : b = u
    · simp only [if_neg hau, hbu, if_pos rfl] at hf
      have ha : a = v := by simpa using hf
      subst hbu ha
      simp [edgeMatches]
    · simp [if_neg hau, if_neg hbu] at hf

theorem Adj_symm (g : WGraph) (u v : ℤ) (h : Adj g u v) : Adj g v u := by
  rw [Adj, adjB, List.any_eq_true] at h ⊢
  obtain ⟨e, he, hm⟩ := h
  exact ⟨e, he, by rw [edgeMatches_comm]; exact hm⟩

theorem self_mem_vertsOf (g : WGraph) (s : ℤ) : s ∈ vertsOf g s := by
  rw [vertsOf, List.mem_dedup]
  exact List.mem_cons_self _ _

theorem endpoints_mem_foldr (edges : List (ℤ × ℤ × ℝ)) (e : ℤ × ℤ × ℝ) (he : e ∈ edges) :
    e.1 ∈ edges.foldr (fun e acc => e.1 :: e.2.1 :: acc) ([] : List ℤ) ∧
    e.2.1 ∈ edges.foldr (fun e acc => e.1 :: e.2.1 :: acc) ([] : List ℤ) := by
  induction edges with
  | nil => simp at he
  | cons f fs ih =>
      rcases List.mem_cons.mp he with rfl | hmem
      · constructor <;> simp
      · have hh := ih hmem
        constructor <;> simp [hh.1, hh.2]

theorem mem_vertsOf_of_neighbor (g : WGraph) (s u v : ℤ) (h : v ∈ neighbors g u) :
    v ∈ vertsOf g s := by
  rw [neighbors, List.mem_filterMap] at h
  obtain ⟨e, he, hf⟩ := h
  rw [vertsOf, List.mem_dedup]
  have hend := endpoints_mem_foldr g.edges e he
  rcases e with ⟨a, b, w⟩
  simp only at hf hend
  by_cases hau : a = u
  · simp only [hau, if_pos rfl] at hf
    have hb : b = v := by simpa using hf
    subst hb
    exact List.mem_cons_of_mem _ hend.2
  · by_cases hbu : b = u
    · simp only [if_neg hau, hbu, if_pos rfl] at hf
      have ha : a = v := by simpa using hf
      subst ha
      exact List.mem_cons_of_mem _ hend.1
    · simp [if_neg hau, if_neg hbu] at hf

theorem walksFrom_sound (g : WGraph) (s : ℤ) :
    ∀ (k : ℕ) (p : List ℤ), p ∈ walksFrom g s k →
      p.length = k + 1 ∧ p.getLast? = some s ∧ List.Chain' (Adj g) p := by
  intro k
  induction k with
  | zero =>
      intro p hp
      simp only [walksFrom, List.mem_singleton] at hp
      subst hp
      exact ⟨rfl, rfl, List.chain'_singleton s⟩
  | succ k ih =>
      intro p hp
      simp only [walksFrom, List.mem_flatten] at hp
      obtain ⟨l, hl, hpl⟩ := hp
      rw [List.mem_map] at hl
      obtain ⟨q, hq, rfl⟩ := hl
      rw [List.mem_map] at hpl
      obtain ⟨v, hv, rfl⟩ := hpl
      obtain ⟨hlen, hlast, hchain⟩ := ih q hq
      cases q with
      | nil => simp at hlen
      | cons h t =>
          have hadj : Adj g v h := by
            have h1 : Adj g h v := adj_of_mem_neighbors g h v (by simpa using hv)
            exact Adj_symm g h v h1
          refine ⟨by simpa using hlen, ?_, ?_⟩
          · rw [List.getLast?_cons_cons]
            exact hlast
          · exact List.chain'_cons.mpr ⟨hadj, hchain⟩

theorem walksFrom_complete (g : WGraph) (s : ℤ) :
    ∀ (k : ℕ) (p : List ℤ), p.length = k + 1 → p.getLast? = some s →
      List.Chain' (Adj g) p → p ∈ walksFrom g s k := by
  intro k
  induction k with
  | zero =>
      intro p hlen hlast _
      cases p with
      | nil => simp at hlen
      | cons x t =>
          cases t with
          | nil =>
              have hx : x = s := by simpa using hlast
              subst hx
              simp [walksFrom]
          | cons y t2 => simp at hlen
  | succ k ih =>
      intro p hlen hlast hchain
      cases p with
      | nil => simp at hlen
      | cons v q =>
          have hq : q.length = k + 1 := by simpa using hlen
          cases q with
          | nil => simp at hq
          | cons h t =>
              have hlast2 : (h :: t).getLast? = some s := by
                rw [List.getLast?_cons_cons] at hlast
                exact hlast
              have hsplit := List.chain'_cons.mp hchain
              have hmem := ih (h :: t) hq hlast2 hsplit.2
              simp only [walksFrom, List.mem_flatten]
              refine ⟨(neighbors g ((h :: t).headD s)).map (fun w => w :: (h :: t)), ?_, ?_⟩
              · exact List.mem_map_of_mem _ hmem
              · rw [List.mem_map]
                exact ⟨v, mem_neighbors_of_adj g h v (Adj_symm g v h hsplit.1), rfl⟩

theorem walksFrom_subset_verts (g : WGraph) (s : ℤ) :
    ∀ (k : ℕ) (p : List ℤ), p ∈ walksFrom g s k → ∀ x ∈ p, x ∈ vertsOf g s := by
  intro k
  induction k with
  | zero =>
      intro p hp x hx
      simp only [walksFrom, List.mem_singleton] at hp
      subst hp
      have hxs : x = s := by simpa using hx
      rw [hxs]
      exact self_mem_vertsOf g s
  | succ k ih =>
      intro p hp x hx
      simp only [walksFrom, List.mem_flatten] at hp
      obtain ⟨l, hl, hpl⟩ := hp
      rw [List.mem_map] at hl
      obtain ⟨q, hq, rfl⟩ := hl
      rw [List.mem_map] at hpl
      obtain ⟨v, hv, rfl⟩ := hpl
      rcases List.mem_cons.mp hx with rfl | hxq
      · exact mem_vertsOf_of_neighbor g s _ x hv
      · exact ih q hq x hxq

theorem sublist_pair_decomp {α : Type} (x : α) {l1 l2 : List α} (h : l1.Sublist l2) :
    l1 = [x, x] → ∃ a b c, l2 = a ++ x :: b ++ x :: c := by
  induction h with
  | slnil => intro he; simp at he
  | cons a _ ih =>
      intro he
      obtain ⟨p, q, r, rfl⟩ := ih he
      exact ⟨a :: p, q, r, rfl⟩
  | cons₂ a h2 ih =>
      intro he
      have hax : a = x := (List.cons_eq_cons.mp he).1
      have hl1 := (List.cons_eq_cons.mp he).2
      have hx2 : x ∈ _ := List.singleton_sublist.mp (hl1 ▸ h2)
      obtain ⟨b, c, rfl⟩ := List.append_of_mem hx2
      exact ⟨[], b, c, by rw [hax]; simp⟩

theorem getLast?_append_cons {α : Type} (l l2 : List α) (y : α) :
    (l ++ y :: l2).getLast? = (y :: l2).getLast? := by
  rw [List.getLast?_append]
  rw [List.getLast?_eq_getLast (y :: l2) (by simp)]
  rfl

theorem head?_splice {α : Type} (a b c : List α) (x : α) :
    (a ++ x :: c).head? = (a ++ x :: b ++ x :: c).head? := by
  cases a <;> simp

theorem getLast?_splice {α : Type} (a b c : List α) (x : α) :
    (a ++ x :: c).getLast? = (a ++ x :: b ++ x :: c).getLast? := by
  rw [getLast?_append_cons a c x]
  rw [show a ++ x :: b ++ x :: c = a ++ x :: (b ++ x :: c) by simp]
  rw [getLast?_append_cons a (b ++ x :: c) x]
  rw [show x :: (b ++ x :: c) = (x :: b) ++ x :: c by simp]
  rw [getLast?_append_cons (x :: b) c x]

theorem chain'_splice {α : Type} {R : α → α → Prop} (a b c : List α) (x : α)
    (h : List.Chain' R (a ++ x :: b ++ x :: c)) : List.Chain' R (a ++ x :: c) := by
  rw [show a ++ x :: b ++ x :: c = a ++ ((x :: b) ++ x :: c) by simp] at h
  rw [List.chain'_append] at h
  obtain ⟨ha, hmid, hlink⟩ := h
  rw [List.chain'_append] at hmid
  obtain ⟨hxb, hxc, hlink2⟩ := hmid
  rw [show a ++ x :: c = a ++ (x :: c) from rfl, List.chain'_append]
  refine ⟨ha, hxc, ?_⟩
  intro p hp q hq
  have hqx : x = q := by simpa using hq
  subst hqx
  exact hlink p hp x (by simp)

theorem pathsTo_shorten (g : WGraph) (s t : ℤ) (k : ℕ) (hk : nodeBound g s ≤ k)
    (h : pathsTo g s t k ≠ []) : ∃ j, j < k ∧ pathsTo g s t j ≠ [] := by
  obtain ⟨p, hp⟩ := List.exists_mem_of_ne_nil _ h
  rw [pathsTo, List.mem_filter, decide_eq_true_iff] at hp
  obtain ⟨hw, hhead⟩ := hp
  obtain ⟨hlen, hlast, hchain⟩ := walksFrom_sound g s k p hw
  have hsub : ∀ x ∈ p, x ∈ vertsOf g s := walksFrom_subset_verts g s k p hw
  have hnotnodup : ¬ p.Nodup := by
    intro hnd
    have hsp := (hnd.subperm (fun x hx => hsub x hx)).length_le
    rw [hlen] at hsp
    have : (vertsOf g s).length = nodeBound g s := rfl
    omega
  rw [List.nodup_iff_sublist] at hnotnodup
  push_neg at hnotnodup
  obtain ⟨x, hx⟩ := hnotnodup
  obtain ⟨a, b, c, rfl⟩ := sublist_pair_decomp x hx rfl
  have hqchain := chain'_splice a b c x hchain
  have hqlast : (a ++ x :: c).getLast? = some s := by
    rw [getLast?_splice a b c x]
    exact hlast
  have hqhead : (a ++ x :: c).head? = some t := by
    rw [head?_splice a b c x]
    exact hhead
  have hqne : (a ++ x :: c) ≠ [] := by simp
  have hqlen : (a ++ x :: c).length = ((a ++ x :: c).length - 1) + 1 := by
    cases hcc : (a ++ x :: c) with
    | nil => exact absurd hcc hqne
    | cons z zs => simp
  have hqmem := walksFrom_complete g s ((a ++ x :: c).length - 1) (a ++ x :: c)
    hqlen hqlast hqchain
  refine ⟨(a ++ x :: c).length - 1, ?_, ?_⟩
  · have h1 : (a ++ x :: b ++ x :: c).length = k + 1 := hlen
    simp only [List.length_append, List.length_cons] at h1 ⊢
    omega
  · apply List.ne_nil_of_mem (a := a ++ x :: c)
    rw [pathsTo, List.mem_filter, decide_eq_true_iff]
    exact ⟨hqmem, hqhead⟩

theorem pathsTo_min (g : WGraph) (s t : ℤ) :
    ∀ k, pathsTo g s t k ≠ [] → ∃ j, j < nodeBound g s ∧ pathsTo g s t j ≠ [] := by
  intro k
  induction k using Nat.strong_induction_on with
  | _ k ih =>
      intro hk
      by_cases hlt : k < nodeBound g s
      · exact ⟨k, hlt, hk⟩
      · obtain ⟨j, hj, hne⟩ := pathsTo_shorten g s t k (by omega) hk
        exact ih j hj hne

theorem searchK_sound (g : WGraph) (s t : ℤ) :
    ∀ (b k : ℕ) (p : List ℤ), searchK g s t k b = some p →
      ∃ j, k ≤ j ∧ j < k + b ∧ (pathsTo g s t j).head? = some p ∧
        ∀ i, k ≤ i → i < j → pathsTo g s t i = [] := by
  intro b
  induction b with
  | zero => intro k p h; simp [searchK] at h
  | succ b ih =>
      intro k p h
      rw [searchK] at h
      cases hh : (pathsTo g s t k).head? with
      | some q =>
          rw [hh] at h
          have hqp : q = p := by simpa using h
          subst hqp
          exact ⟨k, le_refl k, by omega, hh, fun i hi hik => by omega⟩
      | none =>
          rw [hh] at h
          obtain ⟨j, hj1, hj2, hj3, hj4⟩ := ih (k + 1) p h
          refine ⟨j, by omega, by omega, hj3, ?_⟩
          intro i hi hij
          rcases Nat.eq_or_lt_of_le hi with rfl | hlt
          · exact List.head?_eq_none_iff.mp hh
          · exact hj4 i hlt hij

theorem searchP_complete (g : WGraph) (s t : ℤ) :
    ∀ (b k : ℕ), (∃ j, k ≤ j ∧ j < k + b ∧ pathsTo g s t j ≠ []) →
      searchK g s t k b ≠ none := by
  intro b
  induction b with
  | zero =>
      rintro k ⟨j, h1, h2, h3⟩
      omega
  | succ b ih =>
      rintro k ⟨j, h1, h2, h3⟩
      rw [searchK]
      cases hh : (pathsTo g s t k).head? with
      | some q => simp
      | none =>
          have hk0 : pathsTo g s t k = [] := List.head?_eq_none_iff.mp hh
          apply ih (k + 1)
          refine ⟨j, ?_, by omega, h3⟩
          rcases Nat.eq_or_lt_of_le h1 with rfl | hlt
          · exact absurd hk0 h3
          · omega

theorem rev_mem_pathsTo (g : WGraph) (s t : ℤ) (p : List ℤ) (hp : IsPathList g s t p) :
    p.reverse ∈ pathsTo g s t (p.length - 1) := by
  obtain ⟨hhead, hlast, hchain⟩ := hp
  have hne : p ≠ [] := by
    intro hnil
    rw [hnil] at hhead
    simp at hhead
  have hlen : p.reverse.length = (p.length - 1) + 1 := by
    cases p with
    | nil => exact absurd rfl hne
    | cons z zs => simp
  have hrlast : p.reverse.getLast? = some s := by
    rw [List.getLast?_reverse]
    exact hhead
  have hrchain : List.Chain' (Adj g) p.reverse := by
    rw [List.chain'_reverse]
    exact hchain.imp (fun a b hab => Adj_symm g a b hab)
  have hrhead : p.reverse.head? = some t := by
    rw [List.head?_reverse]
    exact hlast
  rw [pathsTo, List.mem_filter, decide_eq_true_iff]
  exact ⟨walksFrom_complete g s (p.length - 1) p.reverse hlen hrlast hrchain, hrhead⟩

theorem pathsTo_elem_spec (g : WGraph) (s t : ℤ) (k : ℕ) (rp : List ℤ)
    (h : rp ∈ pathsTo g s t k) :
    IsPathList g s t rp.reverse ∧ rp.reverse.length = k + 1 := by
  rw [pathsTo, List.mem_filter, decide_eq_true_iff] at h
  obtain ⟨hw, hhead⟩ := h
  obtain ⟨hlen, hlast, hchain⟩ := walksFrom_sound g s k rp hw
  refine ⟨⟨?_, ?_, ?_⟩, by simpa using hlen⟩
  · rw [List.head?_reverse]
    exact hlast
  · rw [List.getLast?_reverse]
    exact hhead
  · rw [List.chain'_reverse]
    exact hchain.imp (fun a b hab => Adj_symm g a b hab)

theorem shortestPath_spec (g : WGraph) (s t : ℤ) (q : List ℤ)
    (h : shortestPath g s t = some q) :
    IsPathList g s t q ∧ (∀ p, IsPathList g s t p → q.length ≤ p.length) ∧ q.Nodup := by
  rw [shortestPath] at h
  cases hs : searchK g s t 0 (nodeBound g s) with
  | none => rw [hs] at h; simp at h
  | some rp =>
      rw [hs] at h
      have hq : q = rp.reverse := by simpa using h.symm
      subst hq
      obtain ⟨j, _, hj2, hj3, hj4⟩ := searchK_sound g s t (nodeBound g s) 0 rp hs
      have hmem : rp ∈ pathsTo g s t j := List.mem_of_mem_head? (by rw [hj3]; rfl)
      obtain ⟨hpath, hlen⟩ := pathsTo_elem_spec g s t j rp hmem
      have hminimal : ∀ p, IsPathList g s t p → rp.reverse.length ≤ p.length := by
        intro p hp
        have hprev := rev_mem_pathsTo g s t p hp
        have hpne : p ≠ [] := by
          intro hnil
          rw [hnil] at hp
          simp [IsPathList] at hp
        by_cases hcmp : p.length - 1 < j
        · exact absurd (List.ne_nil_of_mem hprev) (by simp [hj4 (p.length - 1) (by omega) hcmp])
        · have : j ≤ p.length - 1 := by omega
          have hplen : 1 ≤ p.length := by
            cases p with
            | nil => exact absurd rfl hpne
            | cons z zs => simp
          omega
      refine ⟨hpath, hminimal, ?_⟩
      by_contra hnd
      rw [List.nodup_iff_sublist] at hnd
      push_neg at hnd
      obtain ⟨x, hx⟩ := hnd
      obtain ⟨a, b, c, hdecomp⟩ := sublist_pair_decomp x hx rfl
      have hspliced : IsPathList g s t (a ++ x :: c) := by
        obtain ⟨hh, hl, hc⟩ := hpath
        rw [hdecomp] at hh hl hc
        exact ⟨by rw [head?_splice a b c x]; exact hh,
          by rw [getLast?_splice a b c x]; exact hl, chain'_splice a b c x hc⟩
      have hshort := hminimal (a ++ x :: c) hspliced
      rw [hdecomp] at hshort
      simp only [List.length_append, List.length_cons] at hshort
      omega

theorem has_path_iff_exists_path (g : WGraph) (s t : ℤ) :
    has_path g s t = true ↔ ∃ p, IsPathList g s t p := by
  constructor
  · intro h
    rw [has_path] at h
    obtain ⟨q, hq⟩ := Option.isSome_iff_exists.mp h
    exact ⟨q, (shortestPath_spec g s t q hq).1⟩
  · rintro ⟨p, hp⟩
    have hmem := rev_mem_pathsTo g s t p hp
    obtain ⟨j, hj1, hj2⟩ := pathsTo_min g s t (p.length - 1) (List.ne_nil_of_mem hmem)
    have hsome := searchP_complete g s t (nodeBound g s) 0 ⟨j, by omega, by omega, hj2⟩
    rw [has_path, shortestPath]
    cases hs : searchK g s t 0 (nodeBound g s) with
    | none => exact absurd hs hsome
    | some rp => simp

theorem shortestPath_isSome_of_has (g : WGraph) (s t : ℤ)
    (h : ∃ p, IsPathList g s t p) : ∃ q, shortestPath g s t = some q := by
  have := (has_path_iff_exists_path g s t).mpr h
  rw [has_path] at this
  exact Option.isSome_iff_exists.mp this

theorem find?_filter_of_imp {α : Type} (l : List α) (p keep : α → Bool)
    (h : ∀ e, p e = true → keep e = true) :
    (l.filter keep).find? p = l.find? p := by
  induction l with
  | nil => rfl
  | cons e es ih =>
      cases hk : keep e with
      | true =>
          rw [List.filter_cons_of_pos hk]
          cases hp : p e with
          | true => rw [List.find?_cons_of_pos _ hp, List.find?_cons_of_pos _ hp]
          | false => rw [List.find?_cons_of_neg _ (by simp [hp]), List.find?_cons_of_neg _ (by simp [hp]), ih]
      | false =>
          rw [List.filter_cons_of_neg (by simp [hk])]
          have hp : p e = false := by
            cases hpe : p e with
            | true => rw [h e hpe] at hk; cases hk
            | false => rfl
          rw [List.find?_cons_of_neg _ (by simp [hp]), ih]

theorem edgeMatches_unordered (x y a b : ℤ) (e : ℤ × ℤ × ℝ)
    (h1 : edgeMatches x y e = true) (h2 : edgeMatches a b e = true) :
    (x = a ∧ y = b) ∨ (x = b ∧ y = a) := by
  rcases e with ⟨p, q, w⟩
  simp only [edgeMatches, Bool.or_eq_true, Bool.and_eq_true, beq_iff_eq] at h1 h2
  rcases h1 with ⟨rfl, rfl⟩ | ⟨rfl, rfl⟩ <;> rcases h2 with ⟨rfl, rfl⟩ | ⟨rfl, rfl⟩ <;>
    simp

theorem getWeight_removeEdge (g : WGraph) (a b x y : ℤ)
    (h : ¬ ((x = a ∧ y = b) ∨ (x = b ∧ y = a))) :
    getWeight (removeEdge g a b) x y = getWeight g x y := by
  rw [getWeight, removeEdge, getWeight]
  rw [find?_filter_of_imp g.edges (edgeMatches x y) (fun e => !(edgeMatches a b e))]
  intro e he
  cases hab : edgeMatches a b e with
  | true => exact absurd (edgeMatches_unordered x y a b e he hab) h
  | false => simp

theorem pathPairs_cons (u v : ℤ) (rest : List ℤ) :
    pathPairs (u :: v :: rest) = (u, v) :: pathPairs (v :: rest) := by
  simp [pathPairs]

theorem pathPairs_mem (q : List ℤ) (pr : ℤ × ℤ) (h : pr ∈ pathPairs q) :
    pr.1 ∈ q ∧ pr.2 ∈ q := by
  rw [pathPairs] at h
  have h1 := List.of_mem_zip h
  exact ⟨h1.1, List.mem_of_mem_tail h1.2⟩

theorem consumePath_spec (g : WGraph) (p : List ℤ) (hnd : p.Nodup) :
    (consumePath g p).1 = (pathPairs p).map (fun pr => getWeight g pr.1 pr.2) ∧
    (consumePath g p).2.edges
      = g.edges.filter (fun e => !((pathPairs p).any (fun pr => edgeMatches pr.1 pr.2 e))) := by
  induction p generalizing g with
  | nil =>
      refine ⟨by simp [consumePath, pathPairs], ?_⟩
      simp only [consumePath, pathPairs]
      rw [List.filter_congr (fun e _ => by simp : ∀ e ∈ g.edges,
        (!(((List.zip ([] : List ℤ) ([] : List ℤ).tail)).any
          (fun pr => edgeMatches pr.1 pr.2 e))) = true)]
      simp [List.filter_true]
  | cons u rest ih =>
      cases rest with
      | nil =>
          refine ⟨by simp [consumePath, pathPairs], ?_⟩
          simp only [consumePath, pathPairs]
          rw [List.filter_congr (fun e _ => by simp : ∀ e ∈ g.edges,
            (!(((u :: []).zip ([u] : List ℤ).tail).any
              (fun pr => edgeMatches pr.1 pr.2 e))) = true)]
          simp [List.filter_true]
      | cons v rest2 =>
          have hnd2 : (v :: rest2).Nodup := hnd.of_cons
          have hu : u ∉ v :: rest2 := (List.nodup_cons.mp hnd).1
          have ihg := ih (removeEdge g u v) hnd2
          constructor
          · rw [show (consumePath g (u :: v :: rest2)).1
              = getWeight g u v :: (consumePath (removeEdge g u v) (v :: rest2)).1 from rfl]
            rw [pathPairs_cons, List.map_cons, ihg.1]
            congr 1
            apply List.map_congr_left
            intro pr hpr
            have hmem := pathPairs_mem (v :: rest2) pr hpr
            apply getWeight_removeEdge
            rintro (⟨h1, h2⟩ | ⟨h1, h2⟩)
            · exact hu (h1 ▸ hmem.1)
            · exact hu (h2 ▸ hmem.2)
          · rw [show (consumePath g (u :: v :: rest2)).2
              = (consumePath (removeEdge g u v) (v :: rest2)).2 from rfl]
            rw [ihg.2, removeEdge, List.filter_filter]
            rw [pathPairs_cons]
            apply List.filter_congr
            intro e _
            simp only [List.any_cons, Bool.not_or]
            rw [Bool.and_comm]

theorem drainStep_run (P : DrainParams) (st : DrainState) (h : st.stopped = false)
    (p1 p2 : List ℤ) (hp1 : shortestPath st.G1 P.s1 P.t1 = some p1)
    (hp2 : shortestPath st.G2 P.s2 P.t2 = some p2) :
    drainStep P st = { st with
      G1 := (consumePath st.G1 p1).2, G2 := (consumePath st.G2 p2).2,
      l1 := st.l1 ++ [(consumePath st.G1 p1).1.sum],
      l2 := st.l2 ++ [(consumePath st.G2 p2).1.sum] } := by
  rw [drainStep, if_neg (by simp [h]), hp1, hp2]

theorem drainStep_stop1 (P : DrainParams) (st : DrainState) (h : st.stopped = false)
    (hp1 : shortestPath st.G1 P.s1 P.t1 = none)
    (hp2 : shortestPath st.G2 P.s2 P.t2 ≠ none) :
    drainStep P st = { st with stopped := true, special := some ShortCase.graph1 } := by
  obtain ⟨p2, hp2s⟩ := Option.ne_none_iff_exists'.mp hp2
  rw [drainStep, if_neg (by simp [h]), hp1, hp2s]

theorem drainStep_stop2 (P : DrainParams) (st : DrainState) (h : st.stopped = false)
    (hp1 : shortestPath st.G1 P.s1 P.t1 ≠ none)
    (hp2 : shortestPath st.G2 P.s2 P.t2 = none) :
    drainStep P st = { st with stopped := true, special := some ShortCase.graph2 } := by
  obtain ⟨p1, hp1s⟩ := Option.ne_none_iff_exists'.mp hp1
  rw [drainStep, if_neg (by simp [h]), hp1s, hp2]

theorem drainStep_length_le (P : DrainParams) (st : DrainState) :
    (drainStep P st).l1.length ≤ st.l1.length + 1 ∧
    (drainStep P st).l2.length ≤ st.l2.length + 1 := by
  rw [drainStep]
  by_cases h : st.stopped
  · rw [if_pos h]
    omega
  · rw [if_neg h]
    cases shortestPath st.G1 P.s1 P.t1 <;> cases shortestPath st.G2 P.s2 P.t2 <;>
      simp

theorem drainStep_length_eq (P : DrainParams) (st : DrainState)
    (h : st.l1.length = st.l2.length) :
    (drainStep P st).l1.length = (drainStep P st).l2.length := by
  rw [drainStep]
  by_cases hs : st.stopped
  · rw [if_pos hs]
    exact h
  · rw [if_neg hs]
    cases shortestPath st.G1 P.s1 P.t1 <;> cases shortestPath st.G2 P.s2 P.t2 <;>
      simp [h]

theorem drainLoop_length_le (P : DrainParams) :
    ∀ (b : ℕ) (st : DrainState),
      (drainLoop P b st).l1.length ≤ st.l1.length + b ∧
      (drainLoop P b st).l2.length ≤ st.l2.length + b := by
  intro b
  induction b with
  | zero => intro st; simp [drainLoop]
  | succ b ih =>
      intro st
      rw [drainLoop]
      have h1 := drainStep_length_le P st
      have h2 := ih (drainStep P st)
      omega

theorem drainLoop_length_eq (P : DrainParams) :
    ∀ (b : ℕ) (st : DrainState), st.l1.length = st.l2.length →
      (drainLoop P b st).l1.length = (drainLoop P b st).l2.length := by
  intro b
  induction b with
  | zero => intro st h; simpa [drainLoop] using h
  | succ b ih =>
      intro st h
      rw [drainLoop]
      exact ih (drainStep P st) (drainStep_length_eq P st h)

theorem pickSink_singleton (pr : ℤ × ℤ) (stream : ℕ → ℕ) :
    ∀ (fuel t : ℕ), pickSink [pr] pr stream t fuel = none := by
  intro fuel
  induction fuel with
  | zero => intro t; rfl
  | succ fuel ih =>
      intro t
      rw [pickSink]
      rw [if_pos (by simp [Nat.mod_one])]
      exact ih (t + 1)

theorem pickSink_some (bf : List (ℤ × ℤ)) (src : ℤ × ℤ) (stream : ℕ → ℕ) :
    ∀ (fuel t : ℕ), (∃ j, t ≤ j ∧ j < t + fuel ∧ bf.getD (stream j % bf.length) (0, 0) ≠ src) →
      (pickSink bf src stream t fuel).isSome = true := by
  intro fuel
  induction fuel with
  | zero =>
      rintro t ⟨j, h1, h2, h3⟩
      omega
  | succ fuel ih =>
      rintro t ⟨j, h1, h2, h3⟩
      rw [pickSink]
      by_cases hc : bf.getD (stream t % bf.length) (0, 0) = src
      · rw [if_pos hc]
        apply ih (t + 1)
        refine ⟨j, ?_, by omega, h3⟩
        rcases Nat.eq_or_lt_of_le h1 with rfl | hlt
        · exact absurd hc h3
        · omega
      · rw [if_neg hc]
        rfl

theorem spdAfterSample_snd (G1 G2 : WGraph) (bfLen : ℕ) (src snk : ℤ × ℤ) :
    (spdAfterSample G1 G2 bfLen src snk).2
      = euclid (spdAfterSample G1 G2 bfLen src snk).1.l1
          (spdAfterSample G1 G2 bfLen src snk).1.l2 := rfl

theorem spdAfterSample_length_eq (G1 G2 : WGraph) (bfLen : ℕ) (src snk : ℤ × ℤ) :
    (spdAfterSample G1 G2 bfLen src snk).1.l1.length
      = (spdAfterSample G1 G2 bfLen src snk).1.l2.length :=
  drainLoop_length_eq ⟨(decode src).1, (decode snk).1, (decode src).2, (decode snk).2⟩
    (bfLen ^ 2) (initDrain G1 G2) rfl

theorem spdAfterSample_length_le (G1 G2 : WGraph) (bfLen : ℕ) (src snk : ℤ × ℤ) :
    (spdAfterSample G1 G2 bfLen src snk).1.l1.length ≤ bfLen ^ 2 ∧
    (spdAfterSample G1 G2 bfLen src snk).1.l2.length ≤ bfLen ^ 2 := by
  have h := drainLoop_length_le
    ⟨(decode src).1, (decode snk).1, (decode src).2, (decode snk).2⟩
    (bfLen ^ 2) (initDrain G1 G2)
  simpa [initDrain] using h

theorem spd_some_spec (G1 G2 : WGraph) (bf : List (ℤ × ℤ)) (stream : ℕ → ℕ)
    (fuel : ℕ) (r : ℝ) (hr : shortest_path_dist G1 G2 bf stream fuel = some r) :
    ∃ l1 l2 : List ℝ, l1.length = l2.length ∧ r = euclid l1 l2 := by
  rw [shortest_path_dist] at hr
  cases hps : pickSink bf (bf.getD (stream 0 % bf.length) (0, 0)) stream 1 fuel with
  | none => rw [hps] at hr; simp at hr
  | some snk =>
      rw [hps, Option.map_some'] at hr
      refine ⟨(spdAfterSample G1 G2 bf.length (bf.getD (stream 0 % bf.length) (0, 0)) snk).1.l1,
        (spdAfterSample G1 G2 bf.length (bf.getD (stream 0 % bf.length) (0, 0)) snk).1.l2,
        spdAfterSample_length_eq G1 G2 bf.length _ snk, ?_⟩
      rw [← spdAfterSample_snd]
      exact (Option.some_inj.mp hr).symm

/-- Claim C2 (counterexample): on a matching with exactly one pair, every
random draw returns that pair, so the `while source_pair == sink_pair`
resampling loop never terminates and `shortest_path_dist` never returns,
whatever fuel the sampling oracle is given. -/
theorem shortest_path_dist_singleton_matching_diverges :
    ¬ ∃ fuel,
      (shortest_path_dist ⟨[]⟩ ⟨[]⟩ [((1:ℤ), (-1:ℤ))] (fun _ => 0) fuel).isSome = true := by
  rintro ⟨fuel, h⟩
  simp [shortest_path_dist, pickSink_singleton] at h

/-- Claim C2 (amended): whenever some draw of the sampling oracle within
the available fuel yields a pair different from the drawn source pair (with
at least two distinct pairs this happens with probability one), the
resampling loop terminates, and the draining loop performs at most
`|matching|²` iterations, so `shortest_path_dist` returns the Euclidean
distance of two weight-sum lists of length at most `|matching|²`.  For a
matching with exactly one pair no such draw exists and the resampling loop
never terminates (see the counterexample). -/
theorem shortest_path_dist_returns_of_sample (G1 G2 : WGraph) (bf : List (ℤ × ℤ))
    (stream : ℕ → ℕ) (fuel j : ℕ) (h1 : 1 ≤ j) (h2 : j < 1 + fuel)
    (h3 : bf.getD (stream j % bf.length) (0, 0) ≠ bf.getD (stream 0 % bf.length) (0, 0)) :
    ∃ l1 l2 : List ℝ, shortest_path_dist G1 G2 bf stream fuel = some (euclid l1 l2) ∧
      l1.length ≤ bf.length ^ 2 ∧ l2.length ≤ bf.length ^ 2 := by
  have hs := pickSink_some bf (bf.getD (stream 0 % bf.length) (0, 0)) stream fuel 1
    ⟨j, h1, by omega, h3⟩
  obtain ⟨snk, hsnk⟩ := Option.isSome_iff_exists.mp hs
  refine ⟨(spdAfterSample G1 G2 bf.length (bf.getD (stream 0 % bf.length) (0, 0)) snk).1.l1,
    (spdAfterSample G1 G2 bf.length (bf.getD (stream 0 % bf.length) (0, 0)) snk).1.l2,
    ?_, (spdAfterSample_length_le G1 G2 bf.length _ snk).1,
    (spdAfterSample_length_le G1 G2 bf.length _ snk).2⟩
  rw [shortest_path_dist, hsnk, Option.map_some', spdAfterSample_snd]

/-- Witness for claim C2's amended theorem: with two distinct matched pairs
and an oracle whose draw 1 differs from draw 0, the function returns. -/
theorem shortest_path_dist_returns_witness :
    shortest_path_dist ⟨[]⟩ ⟨[]⟩ [((1:ℤ), (-1:ℤ)), ((2:ℤ), (-2:ℤ))] (fun k => k) 1 ≠ none := by
  obtain ⟨l1, l2, hsome, _, _⟩ := shortest_path_dist_returns_of_sample ⟨[]⟩ ⟨[]⟩
    [((1:ℤ), (-1:ℤ)), ((2:ℤ), (-2:ℤ))] (fun k => k) 1 1 (le_refl 1) (by norm_num) (by decide)
  rw [hsome]
  simp

/-- Claim C3: one iteration of the draining loop of `shortest_path_dist`.
When both graphs have a path from their decoded source to their decoded
sink, the loop appends to each graph's weight list the sum of the weights
(in that graph, before any removal) of the edges of the extracted path —
a fewest-hops path from source to sink — and removes exactly that path's
edges from that graph; when exactly one graph has no such path the loop
stops and flags which graph was exhausted (a recorded special case, not an
error); and the value `shortest_path_dist` returns is the Euclidean
distance of the two recorded weight-sum sequences, which always end up
with equal lengths (so zero-padding of a shorter sequence is never
needed). -/
theorem drain_step_spec (P : DrainParams) (st : DrainState) (h : st.stopped = false) :
    (∀ p1 p2, shortestPath st.G1 P.s1 P.t1 = some p1 →
      shortestPath st.G2 P.s2 P.t2 = some p2 →
      (drainStep P st = { st with
        G1 := ⟨st.G1.edges.filter
          (fun e => !((pathPairs p1).any (fun pr => edgeMatches pr.1 pr.2 e)))⟩,
        G2 := ⟨st.G2.edges.filter
          (fun e => !((pathPairs p2).any (fun pr => edgeMatches pr.1 pr.2 e)))⟩,
        l1 := st.l1 ++ [((pathPairs p1).map (fun pr => getWeight st.G1 pr.1 pr.2)).sum],
        l2 := st.l2 ++ [((pathPairs p2).map (fun pr => getWeight st.G2 pr.1 pr.2)).sum] }) ∧
      IsPathList st.G1 P.s1 P.t1 p1 ∧
      (∀ q, IsPathList st.G1 P.s1 P.t1 q → p1.length ≤ q.length) ∧
      IsPathList st.G2 P.s2 P.t2 p2 ∧
      (∀ q, IsPathList st.G2 P.s2 P.t2 q → p2.length ≤ q.length)) ∧
    (shortestPath st.G1 P.s1 P.t1 = none → shortestPath st.G2 P.s2 P.t2 ≠ none →
      drainStep P st = { st with stopped := true, special := some ShortCase.graph1 }) ∧
    (shortestPath st.G1 P.s1 P.t1 ≠ none → shortestPath st.G2 P.s2 P.t2 = none →
      drainStep P st = { st with stopped := true, special := some ShortCase.graph2 }) ∧
    (∀ (G1 G2 : WGraph) (bf : List (ℤ × ℤ)) (stream : ℕ → ℕ) (fuel : ℕ) (r : ℝ),
      shortest_path_dist G1 G2 bf stream fuel = some r →
      ∃ l1 l2 : List ℝ, l1.length = l2.length ∧ r = euclid l1 l2) := by
  refine ⟨?_, drainStep_stop1 P st h, drainStep_stop2 P st h,
    fun G1 G2 bf stream fuel r hr => spd_some_spec G1 G2 bf stream fuel r hr⟩
  intro p1 p2 hp1 hp2
  have hs1 := shortestPath_spec st.G1 P.s1 P.t1 p1 hp1
  have hs2 := shortestPath_spec st.G2 P.s2 P.t2 p2 hp2
  have hc1 := consumePath_spec st.G1 p1 hs1.2.2
  have hc2 := consumePath_spec st.G2 p2 hs2.2.2
  refine ⟨?_, hs1.1, hs1.2.1, hs2.1, hs2.2.1⟩
  rw [drainStep_run P st h p1 p2 hp1 hp2, hc1.1, hc2.1, ← hc1.2, ← hc2.2]

/-- Witness for claim C3: on the one-edge graph `0 —(weight 5)— 1` drained
from source `0` to sink `1`, one iteration records the weight sum `5` in
each list and removes the traversed edge. -/
theorem drain_step_spec_witness :
    (drainStep ⟨0, 1, 0, 1⟩
        (initDrain ⟨[((0:ℤ), 1, (5:ℝ))]⟩ ⟨[((0:ℤ), 1, (5:ℝ))]⟩)).l1 = [(5:ℝ)] ∧
    (drainStep ⟨0, 1, 0, 1⟩
        (initDrain ⟨[((0:ℤ), 1, (5:ℝ))]⟩ ⟨[((0:ℤ), 1, (5:ℝ))]⟩)).G1.edges = [] := by
  have h := (drain_step_spec ⟨0, 1, 0, 1⟩
      (initDrain ⟨[((0:ℤ), 1, (5:ℝ))]⟩ ⟨[((0:ℤ), 1, (5:ℝ))]⟩) rfl).1
    [0, 1] [0, 1] (by decide) (by decide)
  rw [h.1]
  constructor
  · simp [initDrain, pathPairs, getWeight, edgeMatches]
  · simp [initDrain, pathPairs, edgeMatches]

/-- Claim C10: the two recorded weight-sum lists always have equal length —
each draining iteration appends one sum to both lists or stops without
appending — so the Euclidean distance at return is always taken over two
equal-length sequences and the unequal-length padding fallback is never
exercised. -/
theorem drain_weight_lists_equal_length (P : DrainParams) (b : ℕ) (st : DrainState)
    (h : st.l1.length = st.l2.length) :
    (drainLoop P b st).l1.length = (drainLoop P b st).l2.length ∧
    ∀ (G1 G2 : WGraph) (bf : List (ℤ × ℤ)) (stream : ℕ → ℕ) (fuel : ℕ) (r : ℝ),
      shortest_path_dist G1 G2 bf stream fuel = some r →
      ∃ l1 l2 : List ℝ, l1.length = l2.length ∧ r = euclid l1 l2 :=
  ⟨drainLoop_length_eq P b st h,
    fun G1 G2 bf stream fuel r hr => spd_some_spec G1 G2 bf stream fuel r hr⟩

/-- Witness for claim C10: the invariant applied to a concrete run. -/
theorem drain_weight_lists_equal_length_witness :
    (drainLoop ⟨0, 1, 0, 1⟩ 2 (initDrain ⟨[]⟩ ⟨[]⟩)).l1.length
      = (drainLoop ⟨0, 1, 0, 1⟩ 2 (initDrain ⟨[]⟩ ⟨[]⟩)).l2.length :=
  (drain_weight_lists_equal_length ⟨0, 1, 0, 1⟩ 2 (initDrain ⟨[]⟩ ⟨[]⟩) rfl).1

theorem addNode_edges (g : BGraph) (x : ℤ) : (addNode g x).edges = g.edges := by
  rw [addNode]
  split <;> rfl

theorem addNode_mem_self (g : BGraph) (x : ℤ) : x ∈ (addNode g x).nodes := by
  rw [addNode]
  split
  · assumption
  · simp

theorem addNode_mem_mono (g : BGraph) (x y : ℤ) (h : y ∈ g.nodes) :
    y ∈ (addNode g x).nodes := by
  rw [addNode]
  split
  · exact h
  · simp [h]

theorem addEdge_edges (g : BGraph) (u v : ℤ) (w : ℝ) :
    (addEdge g u v w).edges = g.edges.filter (fun e => !(edgeMatches u v e)) ++ [(u, v, w)] := by
  rw [addEdge]
  simp only [addNode_edges]

theorem addEdge_mem_left (g : BGraph) (u v : ℤ) (w : ℝ) : u ∈ (addEdge g u v w).nodes := by
  rw [addEdge]
  exact addNode_mem_mono _ v u (addNode_mem_self g u)

theorem addEdge_mem_right (g : BGraph) (u v : ℤ) (w : ℝ) : v ∈ (addEdge g u v w).nodes := by
  rw [addEdge]
  exact addNode_mem_self _ v

theorem addEdge_mem_mono (g : BGraph) (u v z : ℤ) (w : ℝ) (h : z ∈ g.nodes) :
    z ∈ (addEdge g u v w).nodes := by
  rw [addEdge]
  exact addNode_mem_mono _ v z (addNode_mem_mono g u z h)

theorem getW_addEdge_self (g : BGraph) (u v : ℤ) (w : ℝ) :
    getW (addEdge g u v w) u v = some w := by
  rw [getW, addEdge_edges, List.find?_append]
  have h1 : (g.edges.filter (fun e => !(edgeMatches u v e))).find? (edgeMatches u v) = none := by
    rw [List.find?_eq_none]
    intro e he
    have := (List.mem_filter.mp he).2
    simp only [Bool.not_eq_true'] at this
    simp [this]
  rw [h1]
  have h2 : edgeMatches u v (u, v, w) = true := by simp [edgeMatches]
  simp [List.find?, h2]

theorem getW_addEdge_other (g : BGraph) (u v x y : ℤ) (w : ℝ)
    (h : ¬ ((x = u ∧ y = v) ∨ (x = v ∧ y = u))) :
    getW (addEdge g u v w) x y = getW g x y := by
  rw [getW, addEdge_edges, List.find?_append]
  have h1 : (g.edges.filter (fun e => !(edgeMatches u v e))).find? (edgeMatches x y)
      = g.edges.find? (edgeMatches x y) := by
    apply find?_filter_of_imp
    intro e he
    cases huv : edgeMatches u v e with
    | true => exact absurd (edgeMatches_unordered x y u v e he huv) h
    | false => simp
  have h2 : edgeMatches x y (u, v, w) = false := by
    cases hxy : edgeMatches x y (u, v, w) with
    | true =>
        exfalso
        apply h
        have := edgeMatches_unordered x y u v (u, v, w) hxy (by simp [edgeMatches])
        exact this
    | false => rfl
  rw [h1]
  have h3 : List.find? (edgeMatches x y) [(u, v, w)] = none := by
    rw [List.find?_eq_none]
    intro e he
    have he2 : e = (u, v, w) := by simpa using he
    rw [he2, h2]
    simp
  rw [h3, getW]
  cases g.edges.find? (edgeMatches x y) <;> rfl

theorem mem_foldl_addNode (l : List ℤ) :
    ∀ (g : BGraph) (x : ℤ), (x ∈ g.nodes ∨ x ∈ l) → x ∈ (List.foldl addNode g l).nodes := by
  induction l with
  | nil =>
      rintro g x (h | h)
      · exact h
      · simp at h
  | cons y ys ih =>
      rintro g x (h | h)
      · exact ih (addNode g y) x (Or.inl (addNode_mem_mono g y x h))
      · rcases List.mem_cons.mp h with rfl | hmem
        · exact ih (addNode g x) x (Or.inl (addNode_mem_self g x))
        · exact ih (addNode g y) x (Or.inr hmem)

theorem bipartBody_spec (iIdx jIdx : ℕ) (g : BGraph) (u o ni nj : List ℝ)
    (hni : IsZExt u ni) (hnj : IsZExt o nj) :
    IsZExt u (bipartBody iIdx jIdx g ni nj).2.1 ∧
    IsZExt o (bipartBody iIdx jIdx g ni nj).2.2 ∧
    getW (bipartBody iIdx jIdx g ni nj).1 ((iIdx:ℤ) + 1) (-(jIdx:ℤ) - 1)
      = some (1 / (padDist u o + 0.001)) ∧
    (∀ x y : ℤ,
      ¬((x = (iIdx:ℤ) + 1 ∧ y = -(jIdx:ℤ) - 1) ∨ (x = -(jIdx:ℤ) - 1 ∧ y = (iIdx:ℤ) + 1)) →
      getW (bipartBody iIdx jIdx g ni nj).1 x y = getW g x y) ∧
    (∀ z, z ∈ g.nodes → z ∈ (bipartBody iIdx jIdx g ni nj).1.nodes) ∧
    ((iIdx:ℤ) + 1) ∈ (bipartBody iIdx jIdx g ni nj).1.nodes ∧
    (-(jIdx:ℤ) - 1) ∈ (bipartBody iIdx jIdx g ni nj).1.nodes := by
  obtain ⟨a, rfl⟩ := hni
  obtain ⟨b, rfl⟩ := hnj
  by_cases hlt : (u ++ List.replicate a 0).length < (o ++ List.replicate b 0).length
  · have hne : ¬ (u ++ List.replicate a 0).length = (o ++ List.replicate b 0).length := by
      omega
    have hbody : bipartBody iIdx jIdx g (u ++ List.replicate a 0) (o ++ List.replicate b 0)
        = (addEdge g ((iIdx:ℤ) + 1) (-(jIdx:ℤ) - 1)
            (1 / (euclid (padTo (u ++ List.replicate a 0) (o ++ List.replicate b 0).length)
              (o ++ List.replicate b 0) + 0.001)),
           padTo (u ++ List.replicate a 0) (o ++ List.replicate b 0).length,
           o ++ List.replicate b 0) := by
      simp only [bipartBody]
      rw [if_neg hne, if_pos hlt]
    rw [hbody]
    refine ⟨IsZExt_padTo u _ _ ⟨a, rfl⟩, ⟨b, rfl⟩, ?_, ?_, ?_,
      addEdge_mem_left _ _ _ _, addEdge_mem_right _ _ _ _⟩
    · rw [euclid_zext_lt u o a b hlt]
      exact getW_addEdge_self _ _ _ _
    · intro x y hxy
      exact getW_addEdge_other g _ _ x y _ hxy
    · intro z hz
      exact addEdge_mem_mono _ _ _ z _ hz
  · by_cases heq : (u ++ List.replicate a 0).length = (o ++ List.replicate b 0).length
    · have hz0 : (u ++ List.replicate a 0).length - (o ++ List.replicate b 0).length = 0 := by
        omega
      have hnjpad : padTo (o ++ List.replicate b 0) (u ++ List.replicate a 0).length
          = o ++ List.replicate b 0 := by
        rw [padTo, hz0]
        simp
      have hbody : bipartBody iIdx jIdx g (u ++ List.replicate a 0) (o ++ List.replicate b 0)
          = (addEdge (addEdge g ((iIdx:ℤ) + 1) (-(jIdx:ℤ) - 1)
                (1 / (euclid (u ++ List.replicate a 0) (o ++ List.replicate b 0) + 0.001)))
              ((iIdx:ℤ) + 1) (-(jIdx:ℤ) - 1)
              (1 / (euclid (u ++ List.replicate a 0) (o ++ List.replicate b 0) + 0.001)),
             u ++ List.replicate a 0,
             o ++ List.replicate b 0) := by
        simp only [bipartBody]
        rw [if_pos heq, if_neg hlt, hnjpad]
      rw [hbody]
      refine ⟨⟨a, rfl⟩, ⟨b, rfl⟩, ?_, ?_, ?_, addEdge_mem_left _ _ _ _,
        addEdge_mem_right _ _ _ _⟩
      · rw [euclid_zext_eq u o a b heq]
        exact getW_addEdge_self _ _ _ _
      · intro x y hxy
        rw [getW_addEdge_other _ _ _ x y _ hxy, getW_addEdge_other g _ _ x y _ hxy]
      · intro z hz
        exact addEdge_mem_mono _ _ _ z _ (addEdge_mem_mono _ _ _ z _ hz)
    · have hgt : (o ++ List.replicate b 0).length < (u ++ List.replicate a 0).length := by
        omega
      have hbody : bipartBody iIdx jIdx g (u ++ List.replicate a 0) (o ++ List.replicate b 0)
          = (addEdge g ((iIdx:ℤ) + 1) (-(jIdx:ℤ) - 1)
              (1 / (euclid (u ++ List.replicate a 0)
                (padTo (o ++ List.replicate b 0) (u ++ List.replicate a 0).length) + 0.001)),
             u ++ List.replicate a 0,
             padTo (o ++ List.replicate b 0) (u ++ List.replicate a 0).length) := by
        simp only [bipartBody]
        rw [if_neg heq, if_neg hlt]
      rw [hbody]
      refine ⟨⟨a, rfl⟩, IsZExt_padTo o _ _ ⟨b, rfl⟩, ?_, ?_, ?_,
        addEdge_mem_left _ _ _ _, addEdge_mem_right _ _ _ _⟩
      · rw [euclid_zext_gt u o a b hgt]
        exact getW_addEdge_self _ _ _ _
      · intro x y hxy
        exact getW_addEdge_other g _ _ x y _ hxy
      · intro z hz
        exact addEdge_mem_mono _ _ _ z _ hz

theorem bipartRow_spec (iIdx : ℕ) (u : List ℝ) :
    ∀ (os njs : List (List ℝ)) (jStart : ℕ) (g : BGraph) (ni : List ℝ),
      IsZExt u ni → IsZExtL os njs →
      IsZExt u (bipartRow iIdx jStart g ni njs).2.1 ∧
      IsZExtL os (bipartRow iIdx jStart g ni njs).2.2 ∧
      (∀ k, k < os.length →
        getW (bipartRow iIdx jStart g ni njs).1 ((iIdx:ℤ) + 1) (-((jStart + k : ℕ):ℤ) - 1)
          = some (1 / (padDist u (os.getD k []) + 0.001))) ∧
      (∀ x y : ℤ,
        (∀ k, k < os.length →
          ¬((x = (iIdx:ℤ) + 1 ∧ y = -((jStart + k : ℕ):ℤ) - 1) ∨
            (x = -((jStart + k : ℕ):ℤ) - 1 ∧ y = (iIdx:ℤ) + 1))) →
        getW (bipartRow iIdx jStart g ni njs).1 x y = getW g x y) ∧
      (∀ z, z ∈ g.nodes → z ∈ (bipartRow iIdx jStart g ni njs).1.nodes) := by
  intro os
  induction os with
  | nil =>
      intro njs jStart g ni hni hl
      cases hl
      exact ⟨hni, List.Forall₂.nil, fun k hk => by simp at hk, fun x y _ => rfl,
        fun z hz => hz⟩
  | cons o os ih =>
      intro njs jStart g ni hni hl
      cases hl with
      | cons hj hrest =>
          rename_i nj rest
          have hb := bipartBody_spec iIdx jStart g u o ni nj hni hj
          have hr := ih rest (jStart + 1) (bipartBody iIdx jStart g ni nj).1
            (bipartBody iIdx jStart g ni nj).2.1 hb.1 hrest
          have hg : (bipartRow iIdx jStart g ni (nj :: rest)).1
              = (bipartRow iIdx (jStart + 1) (bipartBody iIdx jStart g ni nj).1
                  (bipartBody iIdx jStart g ni nj).2.1 rest).1 := rfl
          refine ⟨hr.1, List.Forall₂.cons hb.2.1 hr.2.1, ?_, ?_, ?_⟩
          · intro k hk
            cases k with
            | zero =>
                simp only [Nat.add_zero, List.getD_cons_zero]
                rw [hg,
                  hr.2.2.2.1 ((iIdx:ℤ) + 1) (-(jStart:ℤ) - 1)
                    (fun k hk2 => by rintro (⟨h1, h2⟩ | ⟨h1, h2⟩) <;> omega)]
                exact hb.2.2.1
            | succ k =>
                have hk4 : k < os.length := by
                  rw [List.length_cons] at hk
                  omega
                rw [hg, List.getD_cons_succ,
                  show jStart + (k + 1) = (jStart + 1) + k by omega]
                exact hr.2.2.1 k hk4
          · intro x y hxy
            rw [hg, hr.2.2.2.1 x y ?_]
            · apply hb.2.2.2.1 x y
              have h0 := hxy 0 (by rw [List.length_cons]; omega)
              rwa [Nat.add_zero] at h0
            · intro k hk2
              have hk3 := hxy (k + 1) (by rw [List.length_cons]; omega)
              rwa [show jStart + (k + 1) = (jStart + 1) + k by omega] at hk3
          · intro z hz
            rw [hg]
            exact hr.2.2.2.2 z (hb.2.2.2.2.1 z hz)

theorem bipartAll_spec (os2 : List (List ℝ)) :
    ∀ (nei1 njs : List (List ℝ)) (iStart : ℕ) (g : BGraph), IsZExtL os2 njs →
      (∀ i j, i < nei1.length → j < os2.length →
        getW (bipartAll iStart g nei1 njs).1 (((iStart + i : ℕ):ℤ) + 1) (-(j:ℤ) - 1)
          = some (1 / (padDist (nei1.getD i []) (os2.getD j []) + 0.001))) ∧
      (∀ x y : ℤ,
        (∀ i j, i < nei1.length → j < os2.length →
          ¬((x = ((iStart + i : ℕ):ℤ) + 1 ∧ y = -(j:ℤ) - 1) ∨
            (x = -(j:ℤ) - 1 ∧ y = ((iStart + i : ℕ):ℤ) + 1))) →
        getW (bipartAll iStart g nei1 njs).1 x y = getW g x y) ∧
      (∀ z, z ∈ g.nodes → z ∈ (bipartAll iStart g nei1 njs).1.nodes) := by
  intro nei1
  induction nei1 with
  | nil =>
      intro njs iStart g hl
      exact ⟨fun i j hi => by simp at hi, fun x y _ => rfl, fun z hz => hz⟩
  | cons ni rest ih =>
      intro njs iStart g hl
      have hrow := bipartRow_spec iStart ni os2 njs 0 g ni (IsZExt_refl ni) hl
      have hall := ih (bipartRow iStart 0 g ni njs).2.2 (iStart + 1)
        (bipartRow iStart 0 g ni njs).1 hrow.2.1
      have hg : (bipartAll iStart g (ni :: rest) njs).1
          = (bipartAll (iStart + 1) (bipartRow iStart 0 g ni njs).1 rest
              (bipartRow iStart 0 g ni njs).2.2).1 := rfl
      refine ⟨?_, ?_, ?_⟩
      · intro i j hi hj
        cases i with
        | zero =>
            simp only [Nat.add_zero, List.getD_cons_zero]
            rw [hg, hall.2.1 ((iStart:ℤ) + 1) (-(j:ℤ) - 1)
              (fun i2 j2 hi2 hj2 => by rintro (⟨h1, h2⟩ | ⟨h1, h2⟩) <;> omega)]
            have hw := hrow.2.2.1 j hj
            rwa [Nat.zero_add] at hw
        | succ i =>
            have hi4 : i < rest.length := by
              rw [List.length_cons] at hi
              omega
            simp only [List.getD_cons_succ]
            rw [hg, show iStart + (i + 1) = (iStart + 1) + i by omega]
            exact hall.1 i j hi4 hj
      · intro x y hxy
        rw [hg, hall.2.1 x y ?_]
        · apply hrow.2.2.2.1 x y
          intro k hk
          have h0 := hxy 0 k (by rw [List.length_cons]; omega) hk
          rw [Nat.add_zero] at h0
          rwa [Nat.zero_add]
        · intro i2 j2 hi2 hj2
          have hk3 := hxy (i2 + 1) j2 (by rw [List.length_cons]; omega) hj2
          rwa [show iStart + (i2 + 1) = (iStart + 1) + i2 by omega] at hk3
      · intro z hz
        rw [hg]
        exact hall.2.2 z (hrow.2.2.2.2 z hz)

/-- Claim C7: `graphs2bipartite_weight(nei1, nei2)` builds a complete
bipartite graph: it contains node `i+1` for every index `i` of `nei1` and
node `-(j+1)` for every index `j` of `nei2`, and for every pair `(i, j)` an
edge between `i+1` and `-(j+1)` whose weight is `1 / (d + 0.001)` where `d`
is the Euclidean distance between the two original profile vectors after
zero-padding the shorter to the longer's length (the in-place padding the
function performs never changes any weight, since appending zeros to both
compared vectors preserves their padded distance). -/
theorem graphs2bipartite_weight_complete (nei1 nei2 : List (List ℝ)) (i j : ℕ)
    (hi : i < nei1.length) (hj : j < nei2.length) :
    ((i:ℤ) + 1) ∈ (graphs2bipartite_weight nei1 nei2).1.nodes ∧
    (-(j:ℤ) - 1) ∈ (graphs2bipartite_weight nei1 nei2).1.nodes ∧
    getW (graphs2bipartite_weight nei1 nei2).1 ((i:ℤ) + 1) (-(j:ℤ) - 1)
      = some (1 / (padDist (nei1.getD i []) (nei2.getD j []) + 0.001)) := by
  have hdef : (graphs2bipartite_weight nei1 nei2).1
      = (bipartAll 0 ((List.range nei2.length).foldl (fun g (k : ℕ) => addNode g (-(k:ℤ) - 1))
          ((List.range nei1.length).foldl (fun g (k : ℕ) => addNode g ((k:ℤ) + 1))
            ⟨[], []⟩)) nei1 nei2).1 := rfl
  have hfold1 : (List.range nei1.length).foldl (fun g (k : ℕ) => addNode g ((k:ℤ) + 1))
      (⟨[], []⟩ : BGraph)
      = List.foldl addNode ⟨[], []⟩ ((List.range nei1.length).map (fun (k : ℕ) => ((k:ℤ) + 1))) := by
    rw [List.foldl_map]
  have hfold2 : ∀ g : BGraph, (List.range nei2.length).foldl
        (fun g (k : ℕ) => addNode g (-(k:ℤ) - 1)) g
      = List.foldl addNode g ((List.range nei2.length).map (fun (k : ℕ) => (-(k:ℤ) - 1))) := by
    intro g
    rw [List.foldl_map]
  have hn1 : ((i:ℤ) + 1) ∈ ((List.range nei1.length).foldl
      (fun g (k : ℕ) => addNode g ((k:ℤ) + 1)) (⟨[], []⟩ : BGraph)).nodes := by
    rw [hfold1]
    apply mem_foldl_addNode
    right
    simp only [List.mem_map]
    exact ⟨i, List.mem_range.mpr hi, rfl⟩
  have hn1g2 : ((i:ℤ) + 1) ∈ ((List.range nei2.length).foldl
      (fun g (k : ℕ) => addNode g (-(k:ℤ) - 1)) ((List.range nei1.length).foldl
        (fun g (k : ℕ) => addNode g ((k:ℤ) + 1)) (⟨[], []⟩ : BGraph))).nodes := by
    rw [hfold2]
    exact mem_foldl_addNode _ _ _ (Or.inl hn1)
  have hn2g2 : (-(j:ℤ) - 1) ∈ ((List.range nei2.length).foldl
      (fun g (k : ℕ) => addNode g (-(k:ℤ) - 1)) ((List.range nei1.length).foldl
        (fun g (k : ℕ) => addNode g ((k:ℤ) + 1)) (⟨[], []⟩ : BGraph))).nodes := by
    rw [hfold2]
    apply mem_foldl_addNode
    right
    simp only [List.mem_map]
    exact ⟨j, List.mem_range.mpr hj, rfl⟩
  have hall := bipartAll_spec nei2 nei1 nei2 0
    ((List.range nei2.length).foldl (fun g (k : ℕ) => addNode g (-(k:ℤ) - 1))
      ((List.range nei1.length).foldl (fun g (k : ℕ) => addNode g ((k:ℤ) + 1)) ⟨[], []⟩))
    (IsZExtL_refl nei2)
  refine ⟨?_, ?_, ?_⟩
  · rw [hdef]
    exact hall.2.2 _ hn1g2
  · rw [hdef]
    exact hall.2.2 _ hn2g2
  · rw [hdef]
    have hw := hall.1 i j hi hj
    rwa [Nat.zero_add] at hw

/-- Witness for claim C7: the single-profile instance, where the padded
distance between `[1]` and `[2, 2]` is the Euclidean distance of `[1, 0]`
and `[2, 2]`. -/
theorem graphs2bipartite_weight_complete_witness :
    ((0:ℤ) + 1) ∈ (graphs2bipartite_weight [[(1:ℝ)]] [[2, 2]]).1.nodes ∧
    (-(0:ℤ) - 1) ∈ (graphs2bipartite_weight [[(1:ℝ)]] [[2, 2]]).1.nodes ∧
    getW (graphs2bipartite_weight [[(1:ℝ)]] [[2, 2]]).1 ((0:ℤ) + 1) (-(0:ℤ) - 1)
      = some (1 / (padDist [(1:ℝ)] [2, 2] + 0.001)) := by
  have h := graphs2bipartite_weight_complete [[(1:ℝ)]] [[2, 2]] 0 0 (by norm_num) (by norm_num)
  simpa using h
